import Mathlib

/-!
Verification development for the virtual-aggregation and lazy-indexing engine
of the cf-python data layer.

The embedding covers:

* `CFIndex` — `cf/data/array/mixin/indexmixin.py` (`IndexMixin.__getitem__`,
  `index`, `original_shape`): lazy composition of index expressions.
* `CFA` — `cf/data/array/mixin/cfamixin.py` (`subarray_shapes`, `subarrays`,
  `get_fragmented_dimensions`): fragment-aware subarray planning.
* `Fragment` — `cf/data/fragment/netcdffragmentarray.py`
  (`NetCDFFragmentArray.__getitem__`): ordered fallback over candidate
  fragment files.

Machine integers are modelled as `Int`/`Nat` (Python integers are unbounded,
so no wraparound is involved).  Fallible operations return `Option`/`Except`.
-/

namespace CFIndex

/-- A Python `slice` object: any of start, stop, step may be `None`. -/
structure Slc where
  start : Option Int
  stop : Option Int
  step : Option Int
deriving DecidableEq, Repr

/-- `slice(None)`, i.e. `slice(None, None, None)`. -/
def fullSlice : Slc := ⟨none, none, none⟩

/-- The resolved step of a slice (`None` defaults to 1).  A zero step is
invalid in Python and is rejected by `parse_indices` below before any slice
is ever resolved. -/
def Slc.stepVal (s : Slc) : Int := s.step.getD 1

/-- CPython clamping of a slice boundary into `[lower, upper]`. -/
def clampIdx (L lower upper v : Int) : Int :=
  if v < 0 then max (v + L) lower else min v upper

/-- The resolved start of CPython `slice.indices(len)`: the lower bound
(`0`, or the upper bound `len - 1` for a negative step) when missing,
otherwise the given value clamped into `[lower, upper]`. -/
def Slc.startVal (s : Slc) (len : Nat) : Int :=
  match s.start with
  | none => if s.stepVal < 0 then (len : Int) - 1 else 0
  | some v =>
    if s.stepVal < 0 then clampIdx len (-1) ((len : Int) - 1) v
    else clampIdx len 0 len v

/-- The resolved stop of CPython `slice.indices(len)`. -/
def Slc.stopVal (s : Slc) (len : Nat) : Int :=
  match s.stop with
  | none => if s.stepVal < 0 then -1 else (len : Int)
  | some v =>
    if s.stepVal < 0 then clampIdx len (-1) ((len : Int) - 1) v
    else clampIdx len 0 len v

/-- CPython `slice.indices(len)`: resolve a slice against a length, clamping
start/stop into range and defaulting missing components. -/
def Slc.indices (s : Slc) (len : Nat) : Int × Int × Int :=
  (s.startVal len, s.stopVal len, s.stepVal)

/-- Python's `size, mod = divmod(x, st); if mod != 0: size += 1`, the
ceiling-division idiom of `__getitem__` line 139-142 (`divmod` is floor
division, `Int.fdiv`/`Int.fmod`). -/
def ceilC (x st : Int) : Int :=
  if Int.fmod x st ≠ 0 then Int.fdiv x st + 1 else Int.fdiv x st

/-- Number of elements of `range(a, b, st)` (Python semantics):
`max 0 (ceil ((b - a) / st))`. -/
def sliceLen (a b st : Int) : Nat :=
  (max 0 (ceilC (b - a) st)).toNat

/-- `[0, 1, ..., n-1]` as integers: the identity position list of a
dimension of size `n` (also `np.arange(n)`). -/
def idRange (n : Nat) : List Int := (List.range n).map (fun (k : Nat) => (k : Int))

/-- The positions selected by a slice from a dimension of size `L`
(the list `list(range(*s.indices(L)))`). -/
def sliceElems (s : Slc) (L : Nat) : List Int :=
  let p := s.indices L
  (idRange (sliceLen p.1 p.2.1 p.2.2)).map (fun k => p.1 + p.2.2 * k)

/-- numpy-style integer lookup in a list: negative positions count from the
end, out-of-range positions are an `IndexError` (`none`). -/
def npGet (xs : List α) (i : Int) : Option α :=
  let n : Int := xs.length
  let j := if i < 0 then i + n else i
  if 0 ≤ j ∧ j < n then xs[j.toNat]? else none

/-- Sequence `Option` results of a function over a list (the effect of a
Python loop that raises on the first failure). -/
def omapList (f : α → Option β) : List α → Option (List β)
  | [] => some []
  | a :: r =>
    match f a, omapList f r with
    | some b, some t => some (b :: t)
    | _, _ => none

/-- An entry of a newly requested (already parsed) index: per dimension a
slice, an integer, an integer array or a boolean mask. -/
inductive PEntry where
  | psl (s : Slc)
  | pint (i : Int)
  | parr (xs : List Int)
  | pbool (bs : List Bool)
deriving DecidableEq, Repr

/-- An entry of the stored (composed) index.  The source stores arbitrary
Python objects, so boolean arrays and numpy boolean scalars are representable
states even though `__getitem__` never produces them (claim C8). -/
inductive IEntry where
  | esl (s : Slc)
  | eint (i : Int)
  | earr (xs : List Int)
  | ebool (bs : List Bool)
  | eboolscalar (b : Bool)
deriving DecidableEq, Repr

/-- numpy boolean selection: keep the values whose mask entry is `True`. -/
def boolSelect (xs : List α) (bs : List Bool) : List α :=
  ((xs.zip bs).filter (fun p => p.2)).map (fun p => p.1)

/-- `np.asanyarray(xs)[p]` for an integer array `xs`: the dispatch of numpy
fancy indexing used by the source on lines 160 and 163 of `indexmixin.py`. -/
def npIndexE (xs : List Int) : PEntry → Option IEntry
  | .pint i => (npGet xs i).map .eint
  | .parr is => (omapList (npGet xs) is).map .earr
  | .pbool bs => if bs.length = xs.length then some (.earr (boolSelect xs bs)) else none
  | .psl s => (omapList (npGet xs) (sliceElems s xs.length)).map .earr

/-- numpy indexing of a boolean array (only reachable from a stored boolean
entry, which `__getitem__` never creates; kept for faithfulness of the
`np.asanyarray(ind0)[ind1]` branch on an arbitrary stored object). -/
def npIndexB (bs : List Bool) : PEntry → Option IEntry
  | .pint i => (npGet bs i).map .eboolscalar
  | .parr is => (omapList (npGet bs) is).map .ebool
  | .pbool cs => if cs.length = bs.length then some (.ebool (boolSelect bs cs)) else none
  | .psl s => (omapList (npGet bs) (sliceElems s bs.length)).map .ebool

/-- The arithmetic of the slice-with-slice composition of
`IndexMixin.__getitem__` (`indexmixin.py` lines 137-156), on the resolved
components: recompute the requested size via `divmod`, combine offsets and
strides, and replace a negative stop by `None`. -/
def compSlcParts (start step start1 stop1 step1 : Int) : Slc :=
  let size1 := ceilC (stop1 - start1) step1
  let start2 := start + start1 * step
  let step2 := step * step1
  let stop2 := start2 + (size1 - 1) * step2
  let stop3 := if step2 > 0 then stop2 + 1 else stop2 - 1
  if stop3 < 0 then ⟨some start2, none, some step2⟩
  else ⟨some start2, some stop3, some step2⟩

/-- The slice-with-slice composition of `__getitem__`: resolve both slices
(`ind0.indices(original_size)`, `ind1.indices(size0)`) and combine. -/
def composeSlcSlc (original_size size0 : Nat) (ind0 ind1 : Slc) : Slc :=
  compSlcParts (ind0.startVal original_size) ind0.stepVal
    (ind1.startVal size0) (ind1.stopVal size0) ind1.stepVal

/-- One dimension of the composition in `__getitem__` (after the
`ind1 == slice(None)` short-circuit): dispatch on the kinds of the stored
entry `ind0` and the new entry `ind1`. -/
def composeEntry (original_size size0 : Nat) (ind0 : IEntry) (ind1 : PEntry) :
    Option IEntry :=
  match ind0, ind1 with
  | .esl s0, .psl s1 => some (.esl (composeSlcSlc original_size size0 s0 s1))
  | .esl s0, _ => npIndexE (sliceElems s0 original_size) ind1
  | .earr xs, _ => npIndexE xs ind1
  | .ebool bs, _ => npIndexB bs ind1
  | .eboolscalar b, _ => some (.eboolscalar b)
  | .eint i, _ => some (.eint i)

/-- The main loop of `__getitem__` (`indexmixin.py` lines 99-165): walk the
stored index paired with `original_shape`; an integer entry consumes no new
index entry; `slice(None)` keeps the stored entry; otherwise compose. -/
def composeLoop : List IEntry → List Nat → List Nat → List PEntry →
    Option (List IEntry)
  | [], _, _, _ => some []
  | _ :: _, [], _, _ => some []
  | .eint i :: r0, _ :: rOs, sh, ix =>
    (composeLoop r0 rOs sh ix).map (.eint i :: ·)
  | ind0 :: r0, osize :: rOs, size0 :: rSh, ind1 :: rIx =>
    match (if ind1 = .psl fullSlice then some ind0
           else composeEntry osize size0 ind0 ind1),
          composeLoop r0 rOs rSh rIx with
    | some e, some rest => some (e :: rest)
    | _, _ => none
  | _ :: _, _ :: _, _, _ => none

/-- Modelled from the spec: `resolved_shape` (the source's
`cf.functions.indices_shape` with `keepdims=False`, which is not under
`src/`).  Per dimension it yields the selection length (0 for an empty
selection), and a dimension carrying an integer scalar is absent from the
output shape. -/
def indices_shape : List IEntry → List Nat → List Nat
  | .esl s :: r, n :: ns => (sliceElems s n).length :: indices_shape r ns
  | .eint _ :: r, _ :: ns => indices_shape r ns
  | .earr xs :: r, _ :: ns => xs.length :: indices_shape r ns
  | .ebool bs :: r, _ :: ns => (bs.filter (· = true)).length :: indices_shape r ns
  | .eboolscalar _ :: r, _ :: ns => indices_shape r ns
  | _, _ => []

/-- `True` for every parsed entry except a slice with step 0 (an invalid
Python slice). -/
def pEntryOk : PEntry → Bool
  | .psl s => s.step ≠ some 0
  | _ => true

/-- Modelled from the spec: `cf.functions.parse_indices` (not under `src/`).
Per the spec an `IndexExpr` carries one entry per current dimension, and a
dimensionality mismatch is a `ShapeMismatch` error; entries of the listed
kinds pass through unchanged (boolean masks are resolved later, during
composition). -/
def parse_indices (shape : List Nat) (index : List PEntry) :
    Option (List PEntry) :=
  if index.length = shape.length ∧ index.all pEntryOk then some index else none

/-- A lazily indexed array: an opaque reference to the wrapped data source,
the current `shape` component, and the `_custom` bookkeeping of `IndexMixin`
(`index` and `original_shape`, both lazily initialised). -/
structure LazyArr where
  source : Nat
  shape : List Nat
  custom_index : Option (List IEntry)
  custom_original_shape : Option (List Nat)
deriving DecidableEq, Repr

/-- The lazy initialisation performed by the `index` property: if no index is
stored yet, store an all-`slice(None)` index and pin `original_shape` to the
current shape. -/
def touch (a : LazyArr) : LazyArr :=
  match a.custom_index with
  | none =>
    { a with custom_index := some (List.replicate a.shape.length (.esl fullSlice)),
             custom_original_shape := some a.shape }
  | some _ => a

/-- The value returned by the `index` property. -/
def indexVal (a : LazyArr) : List IEntry :=
  ((touch a).custom_index).getD []

/-- The value returned by the `original_shape` property. -/
def originalShapeVal (a : LazyArr) : List Nat :=
  a.custom_original_shape.getD a.shape

/-- `IndexMixin.__getitem__`: parse the new index against the current shape,
compose it with the stored index, and return a new instance carrying the
composed index and the recomputed shape.  The data source is never read. -/
def getitem (a : LazyArr) (index : List PEntry) : Option LazyArr :=
  let a1 := touch a
  let shape0 := a1.shape
  let index0 := indexVal a1
  let original_shape := originalShapeVal a1
  match parse_indices shape0 index with
  | none => none
  | some ix =>
    match composeLoop index0 original_shape shape0 ix with
    | none => none
    | some new_indices =>
      some { source := a1.source,
             shape := indices_shape new_indices original_shape,
             custom_index := some new_indices,
             custom_original_shape := some original_shape }

/-! Ground-truth numpy semantics of index expressions, used to state what the
composed indices mean.  A dimension's selection is either a retained scalar
position or an ordered list of positions. -/

/-- The positions of the `True` entries of a boolean mask. -/
def truePositions : List Bool → List Int
  | [] => []
  | b :: r =>
    if b then 0 :: (truePositions r).map (· + 1)
    else (truePositions r).map (· + 1)

/-- The meaning of one dimension's index: a retained scalar position (the
dimension is dropped) or an ordered list of positions. -/
inductive Sel where
  | scal (i : Int)
  | list (xs : List Int)
deriving DecidableEq, Repr

/-- The selection denoted by a stored index entry on a dimension of the given
size (boolean entries are never stored by `__getitem__`). -/
def selOfEntry (size : Nat) : IEntry → Option Sel
  | .esl s => some (.list (sliceElems s size))
  | .eint i => some (.scal i)
  | .earr xs => some (.list xs)
  | .ebool _ => none
  | .eboolscalar _ => none

/-- The selection denoted by a parsed index entry on a dimension of the given
size, with numpy normalisation: negative integers count from the end, an
out-of-range integer or a wrong-length mask is an error. -/
def selOfP (size : Nat) : PEntry → Option Sel
  | .psl s => some (.list (sliceElems s size))
  | .pint i => (npGet (idRange size) i).map .scal
  | .parr is => (omapList (npGet (idRange size)) is).map .list
  | .pbool bs => if bs.length = size then some (.list (truePositions bs)) else none

/-- The per-dimension selections of a stored index over a shape. -/
def selsOfS : List IEntry → List Nat → Option (List Sel)
  | [], [] => some []
  | e :: r, n :: ns =>
    match selOfEntry n e, selsOfS r ns with
    | some s, some t => some (s :: t)
    | _, _ => none
  | _, _ => none

/-- The per-dimension selections of a parsed index over a shape. -/
def selsOfP : List PEntry → List Nat → Option (List Sel)
  | [], [] => some []
  | e :: r, n :: ns =>
    match selOfP n e, selsOfP r ns with
    | some s, some t => some (s :: t)
    | _, _ => none
  | _, _ => none

/-- The shape (numpy semantics) of a selection sequence: scalar dimensions
are dropped, list dimensions contribute their length. -/
def selShape : List Sel → List Nat
  | [] => []
  | .scal _ :: r => selShape r
  | .list xs :: r => xs.length :: selShape r

/-- Index a position list by a further selection (the ground truth of
composing two indices on one dimension). -/
def selIndex (xs : List Int) : Sel → Option Sel
  | .scal i => (npGet xs i).map .scal
  | .list is => (omapList (npGet xs) is).map .list

/-- Ground-truth composition of selection sequences: a scalar consumes no
entry of the second index (its dimension is already gone); a list dimension
is further indexed by the next entry of the second index. -/
def composeSels : List Sel → List Sel → Option (List Sel)
  | [], [] => some []
  | .scal i :: r, t => (composeSels r t).map (.scal i :: ·)
  | .list xs :: r, s :: t =>
    match selIndex xs s, composeSels r t with
    | some u, some v => some (u :: v)
    | _, _ => none
  | _, _ => none

/-- A stored entry that is not a boolean mask or boolean scalar. -/
def entryNoBool : IEntry → Bool
  | .ebool _ => false
  | .eboolscalar _ => false
  | _ => true

/-- No stored entry is a boolean mask (claim C8's invariant). -/
def noBools (l : List IEntry) : Bool := l.all entryNoBool

/-- Well-formedness of one stored entry against its original dimension size:
slices have a nonzero step, and integer entries are canonical positions
(`__getitem__` only ever stores values drawn from `np.arange` of the
dimension). -/
def entryWF (osize : Nat) : IEntry → Bool
  | .esl s => s.step ≠ some 0
  | .eint i => decide (0 ≤ i ∧ i < (osize : Int))
  | .earr xs => xs.all (fun x => decide (0 ≤ x ∧ x < (osize : Int)))
  | .ebool _ => false
  | .eboolscalar _ => false

/-- Well-formedness of a stored index against the original shape. -/
def storedWF : List IEntry → List Nat → Bool
  | [], [] => true
  | e :: r, n :: ns => entryWF n e && storedWF r ns
  | _, _ => false

/-- Well-formedness of a lazily indexed array: the stored index is
well-formed over `original_shape`, the `shape` component is the resolved
shape of the stored index, and the two `_custom` slots are initialised
together. -/
def arrWF (a : LazyArr) : Prop :=
  storedWF (indexVal a) (originalShapeVal a) = true
  ∧ a.shape = indices_shape (indexVal a) (originalShapeVal a)
  ∧ (a.custom_index = none → a.custom_original_shape = none)

/-- All positions of a selection are canonical for a dimension of size `n`
(nonnegative and in range). -/
def selCanonB (n : Nat) : Sel → Bool
  | .scal i => decide (0 ≤ i ∧ i < (n : Int))
  | .list xs => xs.all (fun x => decide (0 ≤ x ∧ x < (n : Int)))

/-- The no-degenerate-composition proviso for one dimension: when a stored
slice meets a newly requested slice, the request selects at least one
position. -/
def slcPairNE (size0 : Nat) : IEntry → PEntry → Prop
  | .esl _, .psl s1 => sliceElems s1 size0 ≠ []
  | _, _ => True

/-- Every slice entry of a parsed index selects at least one position of its
dimension (`slice(None)` excepted): the hypothesis under which the
slice-with-slice composition of `__getitem__` is exact (claim C1). -/
def slicesNE : List PEntry → List Nat → Bool
  | .psl s :: r, n :: ns =>
    (s = fullSlice || decide (sliceElems s n ≠ [])) && slicesNE r ns
  | _ :: r, _ :: ns => slicesNE r ns
  | _, _ => true

end CFIndex

namespace CFA

/-- A fragment aggregate (`CFAMixin` state): the aggregated `shape`, the
`fragment_shape` component, and the aggregation data dictionary mapping each
fragment position to the fragment's `location` (per-dimension `(start, stop)`
ranges in the aggregated array).  Only the `location` value is relevant to
the planning claims. -/
structure Agg where
  shape : List Nat
  fragment_shape : List Nat
  aggregated_data : List (List Nat × List (Nat × Nat))
deriving DecidableEq, Repr

/-- `CFAMixin.get_fragmented_dimensions`: positions of dimensions spanned by
two or more fragments. -/
def get_fragmented_dimensions (agg : Agg) : List Nat :=
  agg.fragment_shape.enum.filterMap (fun p => if 1 < p.2 then some p.1 else none)

/-- The key `tuple(index)` with `index = [0]*ndim; index[dim] = j`. -/
def coordAt (ndim dim j : Nat) : List Nat :=
  (List.range ndim).map (fun k => if k = dim then j else 0)

/-- `aggregated_data[tuple(index)]["location"][dim]` and the chunk size
`loc[1] - loc[0]` (`cfamixin.py` lines 367-372); `none` models the `KeyError`
or `IndexError` a malformed aggregate would raise. -/
def fragChunkAt (agg : Agg) (dim j : Nat) : Option Nat :=
  (agg.aggregated_data.lookup (coordAt agg.shape.length dim j)).bind
    (fun loc => (loc[dim]?).map (fun p => p.2 - p.1))

/-- The per-fragment chunk sizes of one fragmented dimension. -/
def fragSizes (agg : Agg) (dim n : Nat) : Option (List Nat) :=
  CFIndex.omapList (fragChunkAt agg dim) (List.range n)

/-- The base chunks loop of `subarray_shapes` (`cfamixin.py` lines 357-379):
for a fragmented dimension the tuple of fragment sizes, otherwise the
placeholder `None`. -/
def baseChunksAux (agg : Agg) : Nat → List (Nat × Nat) →
    Option (List (Option (List Nat)))
  | _, [] => some []
  | dim, (nf, _) :: rest =>
    match (if dim ∈ get_fragmented_dimensions agg
           then (fragSizes agg dim nf).map some
           else some none),
          baseChunksAux agg (dim + 1) rest with
    | some h, some t => some (h :: t)
    | _, _ => none

/-- The base chunks of `subarray_shapes`, indexed over
`zip(fragment_shape, shape)` as in the source. -/
def baseChunks (agg : Agg) : Option (List (Option (List Nat))) :=
  baseChunksAux agg 0 (agg.fragment_shape.zip agg.shape)

/-- One element of a chunking request, as accepted per dimension by dask's
`normalize_chunks`: `"auto"`, `None`, an integer, or an explicit tuple. -/
inductive ChunkElem where
  | cauto
  | cnone
  | cnum (n : Int)
  | ctup (t : List Nat)
deriving DecidableEq, Repr

/-- The `shapes` parameter of `subarray_shapes`: a scalar number, a string
(`"auto"`), `None`, a dict, or a sequence. -/
inductive ChunkSpec where
  | num (n : Int)
  | str
  | noneSpec
  | dct (m : List (Nat × ChunkElem))
  | seq (l : List ChunkElem)
deriving DecidableEq, Repr

/-- A base-chunks entry as a chunk element: fragmented dimensions carry their
fragment-size tuple (`none` is unreachable there). -/
def elemOfBase : Option (List Nat) → ChunkElem
  | some t => .ctup t
  | none => .cnone

/-- The per-branch rebuild of `chunks` (`cfamixin.py` lines 381-400): keep
the base entry on fragmented dimensions, otherwise take the requested value
(`fill`). -/
def specChunksAux (fd : List Nat) (fill : Nat → ChunkElem) :
    Nat → List (Option (List Nat)) → List ChunkElem
  | _, [] => []
  | i, c :: rest =>
    (if i ∈ fd then elemOfBase c else fill i) :: specChunksAux fd fill (i + 1) rest

/-- Modelled from the spec: the external chunk-normalisation routine of §6
(dask `normalize_chunks`, consumed verbatim), restricted to the inputs the
source produces.  An explicit tuple is kept unchanged; an integer tiles the
dimension with a remainder block; `None` and `-1` mean the whole dimension;
`"auto"` resolves to the whole dimension at these array sizes; a zero-size
dimension always yields the single chunk `(0,)`. -/
def blockdims (d : Nat) (bd : Int) : List Nat :=
  if d = 0 then [0]
  else if bd ≤ 0 then []
  else List.replicate (d / bd.toNat) bd.toNat ++
    (if d % bd.toNat = 0 then [] else [d % bd.toNat])

/-- Modelled from the spec: one dimension of dask `normalize_chunks`. -/
def normDim : ChunkElem → Nat → List Nat
  | .ctup t, _ => t
  | .cnum n, s => if n = -1 then blockdims s s else blockdims s n
  | .cnone, s => blockdims s s
  | .cauto, s => if s = 0 then [0] else [s]

/-- Modelled from the spec: dask `normalize_chunks` over all dimensions. -/
def normalize_chunks (cs : List ChunkElem) (shape : List Nat) :
    List (List Nat) :=
  (cs.zip shape).map (fun p => normDim p.1 p.2)

/-- Errors of `subarray_shapes`: the `ValueError` for a sequence of the wrong
length (`cfamixin.py` lines 392-396), or the `KeyError`/`IndexError` a
malformed aggregation dictionary would raise while the base chunks are
built. -/
inductive SErr where
  | wrongShapes (got expected : Nat)
  | keyError
deriving DecidableEq, Repr

/-- `CFAMixin.subarray_shapes`: build the base chunks (fragment sizes on
fragmented dimensions), splice in the requested chunking elsewhere, check a
sequence request's length, and normalise. -/
def subarray_shapes (agg : Agg) (spec : ChunkSpec) :
    Except SErr (List (List Nat)) :=
  let fd := get_fragmented_dimensions agg
  match baseChunks agg with
  | none => .error .keyError
  | some base =>
    match spec with
    | .num n => .ok (normalize_chunks (specChunksAux fd (fun _ => .cnum n) 0 base) agg.shape)
    | .str => .ok (normalize_chunks (specChunksAux fd (fun _ => .cauto) 0 base) agg.shape)
    | .noneSpec => .ok (normalize_chunks (specChunksAux fd (fun _ => .cnone) 0 base) agg.shape)
    | .dct m =>
      .ok (normalize_chunks (specChunksAux fd (fun i => (m.lookup i).getD .cauto) 0 base) agg.shape)
    | .seq l =>
      if l.length ≠ agg.shape.length then .error (.wrongShapes l.length agg.shape.length)
      else .ok (normalize_chunks (specChunksAux fd (fun i => l.getD i .cauto) 0 base) agg.shape)

/-- A subarray index component: `slice(None)` on a fragmented dimension, or
a concrete `slice(a, b)`. -/
inductive SIdx where
  | full
  | ival (a b : Nat)
deriving DecidableEq, Repr

/-- `[slice(i, j) for i, j in zip(c[:-1], c[1:])]` with
`c = tuple(accumulate((0,) + c))`. -/
def bounds (c : List Nat) : List SIdx :=
  let acc := c.scanl (· + ·) 0
  (acc.zip acc.tail).map (fun p => .ival p.1 p.2)

/-- `itertools.product`, with the last factor varying fastest. -/
def cartProd : List (List α) → List (List α)
  | [] => [[]]
  | l :: ls => l.flatMap (fun x => (cartProd ls).map (x :: ·))

/-- The six per-subarray descriptor sequences returned by
`CFAMixin.subarrays`. -/
structure SubParts where
  u_indices : List (List SIdx)
  u_shapes : List (List Nat)
  f_indices : List (List SIdx)
  s_locations : List (List Nat)
  f_locations : List (List Nat)
  f_shapes : List (List Nat)
deriving DecidableEq, Repr

/-- `CFAMixin.subarrays` (`cfamixin.py` lines 506-550): per-dimension
descriptor lists followed by their full cross products. -/
def subarrays (agg : Agg) (subarray_shapes : List (List Nat)) : SubParts :=
  let fd := get_fragmented_dimensions agg
  let s_locations := subarray_shapes.map (fun c => List.range c.length)
  let u_shapes := subarray_shapes
  let f_locations := subarray_shapes.enum.map
    (fun p => if p.1 ∈ fd then List.range p.2.length else List.replicate p.2.length 0)
  let u_indices := subarray_shapes.map bounds
  let f_indices := u_indices.enum.map
    (fun p => if p.1 ∈ fd then List.replicate p.2.length SIdx.full else p.2)
  let f_shapes := (u_shapes.zip agg.shape).enum.map
    (fun p => if p.1 ∈ fd then p.2.1 else List.replicate p.2.1.length p.2.2)
  ⟨cartProd u_indices, cartProd u_shapes, cartProd f_indices,
   cartProd s_locations, cartProd f_locations, cartProd f_shapes⟩

/-- The retrieval tasks of `to_dask_array`: one task per record of the
lock-step iteration over the six descriptor sequences. -/
def to_work_graph (agg : Agg) (sh : List (List Nat)) :
    List ((List SIdx × List Nat) × (List SIdx × List Nat) × (List Nat × List Nat)) :=
  let p := subarrays agg sh
  ((p.u_indices.zip p.u_shapes).zip
    ((p.f_indices.zip p.s_locations).zip (p.f_locations.zip p.f_shapes))).map
    (fun q => (q.1, q.2))

end CFA

namespace Fragment

/-- What one attempt to open and read a candidate fragment file does:
deliver the data, raise `FileNotFoundError`, or raise `RuntimeError` with a
message. -/
inductive ReadOutcome (α : Type) where
  | success (d : α)
  | notFound
  | failure (msg : String)
deriving DecidableEq, Repr

/-- The result of `NetCDFFragmentArray.__getitem__`: data, a re-raised
`RuntimeError` naming the failing file, or `FileNotFoundError` naming the
candidate files (with the singular/plural message distinction of lines
225-228). -/
inductive FragResult (α : Type) where
  | data (d : α)
  | readError (msg filename : String)
  | noSuchFiles (plural : Bool) (files : List String)
deriving DecidableEq, Repr

/-- The candidate loop of `NetCDFFragmentArray.__getitem__` (lines 204-222):
return on the first successful read, skip a `FileNotFoundError`, re-raise a
`RuntimeError` immediately. -/
def fragLoop (read : String → String → ReadOutcome α) :
    List (String × String) → Option (FragResult α)
  | [] => none
  | (f, ad) :: rest =>
    match read f ad with
    | .success d => some (.data d)
    | .notFound => fragLoop read rest
    | .failure m => some (.readError m f)

/-- `NetCDFFragmentArray.__getitem__`: try the `(filename, address)` pairs in
order; if every candidate is missing, raise `FileNotFoundError` naming the
files. -/
def fragment_getitem (read : String → String → ReadOutcome α)
    (filenames addresses : List String) : FragResult α :=
  match fragLoop read (filenames.zip addresses) with
  | some r => r
  | none => .noSuchFiles (decide (filenames.length ≠ 1)) filenames

end Fragment

namespace CFA

/-- The requested chunk element the `shapes` argument supplies for one
dimension: the `fill` value of the matching branch of `subarray_shapes`. -/
def dimSpecElem : ChunkSpec → Nat → ChunkElem
  | .num n, _ => .cnum n
  | .str, _ => .cauto
  | .noneSpec, _ => .cnone
  | .dct m, i => (m.lookup i).getD .cauto
  | .seq l, i => l.getD i .cauto

/-- The aggregate of the `subarray_shapes` docstring: aggregated shape
`(12, 1, 73, 144)` with two fragments along dimension 0. -/
def exampleAgg : Agg :=
  ⟨[12, 1, 73, 144], [2, 1, 1, 1],
   [([0, 0, 0, 0], [(0, 6), (0, 1), (0, 73), (0, 144)]),
    ([1, 0, 0, 0], [(6, 12), (0, 1), (0, 73), (0, 144)])]⟩

/-- An aggregate with a zero-size dimension (dimension 1) that is fragmented
along dimension 0. -/
def aggZero : Agg :=
  ⟨[4, 0], [2, 1], [([0, 0], [(0, 2), (0, 0)]), ([1, 0], [(2, 4), (0, 0)])]⟩

end CFA

namespace Fragment

/-- A concrete candidate behaviour exercising the fallback loop: file `"b"`
reads successfully, file `"c"` fails with a `RuntimeError`, any other file is
missing. -/
def readCase (f : String) (_a : String) : ReadOutcome Nat :=
  if f = "b" then .success 5
  else if f = "c" then .failure "bad" else .notFound

end Fragment

namespace CFIndex

theorem fdiv_neg_neg : ∀ a b : Int, Int.fdiv (-a) (-b) = Int.fdiv a b
  | .ofNat 0, _ => by simp
  | .ofNat (n+1), .ofNat 0 => by show (0:Int) = Int.ofNat ((n+1)/0); simp
  | .ofNat (n+1), .ofNat (m+1) => by rfl
  | .ofNat (n+1), .negSucc m => by rfl
  | .negSucc n, .ofNat 0 => by show Int.ofNat ((n+1)/0) = (0:Int); simp
  | .negSucc n, .ofNat (m+1) => by rfl
  | .negSucc n, .negSucc m => by rfl

theorem fmod_neg_neg (a b : Int) : Int.fmod (-a) (-b) = -Int.fmod a b := by
  rw [Int.fmod_def, Int.fmod_def, fdiv_neg_neg]; ring

theorem ceilC_neg_symm (x st : Int) : ceilC (-x) (-st) = ceilC x st := by
  unfold ceilC
  rw [fdiv_neg_neg, fmod_neg_neg]
  simp

theorem ceilC_ge_iff {x st : Int} (hst : 0 < st) (k : Int) :
    k ≤ ceilC x st ↔ st * (k - 1) < x := by
  have hd : st * Int.fdiv x st + Int.fmod x st = x := Int.fdiv_add_fmod x st
  have hr0 : 0 ≤ Int.fmod x st := Int.fmod_nonneg' x hst
  have hr1 : Int.fmod x st < st := Int.fmod_lt_of_pos x hst
  unfold ceilC
  set q := Int.fdiv x st with hq
  set r := Int.fmod x st with hr
  split_ifs with h
  · constructor
    · intro hk
      have h1 : st * (k - 1) ≤ st * q :=
        mul_le_mul_of_nonneg_left (by omega) (le_of_lt hst)
      omega
    · intro hk
      have e : st * (q + 1) = st * q + st := by ring
      have h2 : st * (k - 1) < st * (q + 1) := by omega
      have h3 := (mul_lt_mul_left hst).mp h2
      omega
  · constructor
    · intro hk
      have h1 : st * (k - 1) < st * q := (mul_lt_mul_left hst).mpr (by omega)
      omega
    · intro hk
      have h2 : st * (k - 1) < st * q := by omega
      have h3 := (mul_lt_mul_left hst).mp h2
      omega

theorem ceilC_ge_iff_neg {x st : Int} (hst : st < 0) (k : Int) :
    k ≤ ceilC x st ↔ x < st * (k - 1) := by
  rw [← ceilC_neg_symm x st, ceilC_ge_iff (by omega : (0:Int) < -st) k]
  constructor <;> intro h <;> nlinarith [h]

theorem stepVal_ne_zero {s : Slc} (h : s.step ≠ some 0) : s.stepVal ≠ 0 := by
  unfold Slc.stepVal
  cases hs : s.step with
  | none => simp
  | some v => simp; intro hv; exact h (hv ▸ hs)

theorem startVal_bounds_pos (s : Slc) (L : Nat) (h : 0 < s.stepVal) :
    0 ≤ s.startVal L ∧ s.startVal L ≤ (L : Int) := by
  unfold Slc.startVal clampIdx
  have hL : (0:Int) ≤ (L:Int) := Int.ofNat_nonneg L
  cases s.start <;> dsimp only <;> split_ifs <;> (try constructor) <;> omega

theorem stopVal_bounds_pos (s : Slc) (L : Nat) (h : 0 < s.stepVal) :
    0 ≤ s.stopVal L ∧ s.stopVal L ≤ (L : Int) := by
  unfold Slc.stopVal clampIdx
  have hL : (0:Int) ≤ (L:Int) := Int.ofNat_nonneg L
  cases s.stop <;> dsimp only <;> split_ifs <;> (try constructor) <;> omega

theorem startVal_bounds_neg (s : Slc) (L : Nat) (h : s.stepVal < 0) :
    -1 ≤ s.startVal L ∧ s.startVal L ≤ (L : Int) - 1 := by
  unfold Slc.startVal clampIdx
  have hL : (0:Int) ≤ (L:Int) := Int.ofNat_nonneg L
  cases s.start <;> dsimp only <;> split_ifs <;> (try constructor) <;> omega

theorem stopVal_bounds_neg (s : Slc) (L : Nat) (h : s.stepVal < 0) :
    -1 ≤ s.stopVal L ∧ s.stopVal L ≤ (L : Int) - 1 := by
  unfold Slc.stopVal clampIdx
  have hL : (0:Int) ≤ (L:Int) := Int.ofNat_nonneg L
  cases s.stop <;> dsimp only <;> split_ifs <;> (try constructor) <;> omega

theorem sliceLen_lt_ceil {a b st : Int} {k : Int} (h0 : 0 ≤ k)
    (h : k < (sliceLen a b st : Int)) : k + 1 ≤ ceilC (b - a) st := by
  unfold sliceLen at h
  omega

theorem sliceLen_ge {a b st : Int} {n : Nat} (h : (n : Int) ≤ ceilC (b - a) st) :
    n ≤ sliceLen a b st := by
  unfold sliceLen
  omega

theorem sliceLen_eq_of_ceil {a b st : Int} {n : Nat} (hn : 1 ≤ n)
    (h : ceilC (b - a) st = n) : sliceLen a b st = n := by
  unfold sliceLen
  omega

end CFIndex

namespace CFIndex

theorem idRange_length (n : Nat) : (idRange n).length = n := by
  unfold idRange
  rw [List.length_map, List.length_range]

theorem idRange_get {n k : Nat} (h : k < n) : (idRange n)[k]? = some (k : Int) := by
  unfold idRange
  rw [List.getElem?_map, List.getElem?_range h]
  rfl

theorem mem_idRange {n : Nat} {i : Int} : i ∈ idRange n ↔ 0 ≤ i ∧ i < (n : Int) := by
  unfold idRange
  rw [List.mem_map]
  constructor
  · rintro ⟨k, hk, rfl⟩
    have := List.mem_range.mp hk
    omega
  · rintro ⟨h0, h1⟩
    exact ⟨i.toNat, List.mem_range.mpr (by omega), by omega⟩

theorem idRange_succ (n : Nat) :
    idRange (n + 1) = 0 :: (idRange n).map (· + 1) := by
  unfold idRange
  rw [List.range_succ_eq_map, List.map_cons, List.map_map, List.map_map]
  refine congrArg (0 :: ·) (List.map_congr_left ?_)
  intro k _
  simp only [Function.comp_apply]
  omega

theorem sliceElems_length (s : Slc) (L : Nat) :
    (sliceElems s L).length = sliceLen (s.startVal L) (s.stopVal L) s.stepVal := by
  unfold sliceElems Slc.indices
  rw [List.length_map, idRange_length]

theorem mem_sliceElems {s : Slc} {L : Nat} {x : Int} :
    x ∈ sliceElems s L ↔
      ∃ k : Int, 0 ≤ k ∧ k < (sliceLen (s.startVal L) (s.stopVal L) s.stepVal : Int) ∧
        x = s.startVal L + s.stepVal * k := by
  unfold sliceElems Slc.indices
  rw [List.mem_map]
  constructor
  · rintro ⟨k, hk, rfl⟩
    obtain ⟨h0, h1⟩ := mem_idRange.mp hk
    exact ⟨k, h0, h1, rfl⟩
  · rintro ⟨k, h0, h1, rfl⟩
    exact ⟨k, mem_idRange.mpr ⟨h0, h1⟩, rfl⟩

theorem sliceElems_get {s : Slc} {L : Nat} {k : Nat}
    (hk : k < sliceLen (s.startVal L) (s.stopVal L) s.stepVal) :
    (sliceElems s L)[k]? = some (s.startVal L + s.stepVal * k) := by
  unfold sliceElems Slc.indices
  rw [List.getElem?_map, idRange_get hk]
  rfl

theorem sliceElems_bounds {s : Slc} {L : Nat} (h : s.step ≠ some 0) :
    ∀ x ∈ sliceElems s L, 0 ≤ x ∧ x < (L : Int) := by
  intro x hx
  obtain ⟨k, hk0, hk1, rfl⟩ := mem_sliceElems.mp hx
  have hst := stepVal_ne_zero h
  rcases lt_or_gt_of_ne hst with hneg | hpos
  · have hb := startVal_bounds_neg s L hneg
    have hc := stopVal_bounds_neg s L hneg
    have h1 := sliceLen_lt_ceil hk0 hk1
    have h2 := (ceilC_ge_iff_neg hneg (k + 1)).mp h1
    have e1 : s.stepVal * (k + 1 - 1) = s.stepVal * k := by ring
    rw [e1] at h2
    have h3 : s.stepVal * k ≤ 0 :=
      mul_nonpos_iff.mpr (Or.inr ⟨le_of_lt hneg, hk0⟩)
    omega
  · have hb := startVal_bounds_pos s L hpos
    have hc := stopVal_bounds_pos s L hpos
    have h1 := sliceLen_lt_ceil hk0 hk1
    have h2 := (ceilC_ge_iff hpos (k + 1)).mp h1
    have e1 : s.stepVal * (k + 1 - 1) = s.stepVal * k := by ring
    rw [e1] at h2
    have h3 : 0 ≤ s.stepVal * k := mul_nonneg (le_of_lt hpos) hk0
    omega

theorem npGet_eq {xs : List α} {i : Int} (h0 : 0 ≤ i) (h1 : i < (xs.length : Int)) :
    npGet xs i = xs[i.toNat]? := by
  unfold npGet
  simp only [if_neg (by omega : ¬ i < 0)]
  rw [if_pos ⟨h0, h1⟩]

end CFIndex

namespace CFIndex

theorem npGet_zero (x : α) (xs : List α) : npGet (x :: xs) 0 = some x := by
  unfold npGet
  simp

theorem npGet_cons_shift (x : α) (xs : List α) {i : Int} (h : 0 ≤ i) :
    npGet (x :: xs) (i + 1) = npGet xs i := by
  unfold npGet
  simp only [if_neg (by omega : ¬ i + 1 < 0), if_neg (by omega : ¬ i < 0),
    List.length_cons]
  by_cases hb : 0 ≤ i ∧ i < (xs.length : Int)
  · rw [if_pos (by push_cast; omega), if_pos hb]
    have e : (i + 1).toNat = i.toNat + 1 := by omega
    rw [e, List.getElem?_cons_succ]
  · rw [if_neg (by push_cast; omega), if_neg hb]

theorem omapList_cons (f : α → Option β) (a : α) (r : List α) :
    omapList f (a :: r) =
      match f a, omapList f r with
      | some b, some t => some (b :: t)
      | _, _ => none := rfl

theorem npGet_mem {xs : List α} {i : Int} {v : α} (h : npGet xs i = some v) :
    v ∈ xs := by
  unfold npGet at h
  dsimp only at h
  split_ifs at h with h1 h2
  all_goals exact List.getElem?_mem h

theorem npGet_via_idRange (xs : List α) (i : Int) :
    (npGet (idRange xs.length) i).bind (npGet xs) = npGet xs i := by
  by_cases hneg : i < 0
  · by_cases hb : 0 ≤ i + xs.length ∧ i + xs.length < (xs.length : Int)
    · have h1 : npGet (idRange xs.length) i = some (i + xs.length) := by
        unfold npGet
        rw [idRange_length]
        simp only [if_pos hneg]
        rw [if_pos hb]
        have e : (i + (xs.length : Int)).toNat < xs.length := by omega
        rw [idRange_get e]
        congr 1
        omega
      rw [h1]
      show npGet xs (i + xs.length) = npGet xs i
      unfold npGet
      simp only [if_neg (by omega : ¬ i + (xs.length : Int) < 0), if_pos hneg]
    · have h1 : npGet (idRange xs.length) i = none := by
        unfold npGet
        rw [idRange_length]
        simp only [if_pos hneg]
        rw [if_neg hb]
      have h2 : npGet xs i = none := by
        unfold npGet
        simp only [if_pos hneg]
        rw [if_neg hb]
      rw [h1, h2]
      rfl
  · by_cases hb : 0 ≤ i ∧ i < (xs.length : Int)
    · have h1 : npGet (idRange xs.length) i = some i := by
        unfold npGet
        rw [idRange_length]
        simp only [if_neg hneg]
        rw [if_pos hb]
        have e : i.toNat < xs.length := by omega
        rw [idRange_get e]
        congr 1
        omega
      rw [h1]
      rfl
    · have h1 : npGet (idRange xs.length) i = none := by
        unfold npGet
        rw [idRange_length]
        simp only [if_neg hneg]
        rw [if_neg hb]
      have h2 : npGet xs i = none := by
        unfold npGet
        simp only [if_neg hneg]
        rw [if_neg hb]
      rw [h1, h2]
      rfl

theorem omapList_eq_map {f : α → Option β} {g : α → β} :
    ∀ {l : List α}, (∀ x ∈ l, f x = some (g x)) →
      omapList f l = some (l.map g)
  | [], _ => rfl
  | a :: r, h => by
    unfold omapList
    rw [h a (List.mem_cons_self a r), omapList_eq_map (fun x hx => h x (List.mem_cons_of_mem a hx))]
    rfl

theorem omapList_comp {f : α → Option β} {g : β → Option γ} {fg : α → Option γ}
    (hfg : ∀ a, (f a).bind g = fg a) :
    ∀ l : List α, (omapList f l).bind (omapList g) = omapList fg l
  | [] => rfl
  | a :: r => by
    have ha := hfg a
    have IH := omapList_comp hfg r
    rw [omapList_cons f, omapList_cons fg]
    cases hfa : f a with
    | none =>
      rw [hfa, Option.none_bind] at ha
      rw [← ha]
      rfl
    | some b =>
      rw [hfa, Option.some_bind] at ha
      rw [← ha, ← IH]
      cases hr : omapList f r with
      | none => cases g b <;> rfl
      | some t =>
        simp only [Option.some_bind]
        rw [omapList_cons g]

theorem omapList_mem {f : α → Option β} :
    ∀ {l : List α} {out : List β}, omapList f l = some out →
      ∀ y ∈ out, ∃ x ∈ l, f x = some y
  | [], out, h => by
    unfold omapList at h
    cases h
    intro y hy
    exact absurd hy (by simp)
  | a :: r, out, h => by
    unfold omapList at h
    cases hfa : f a with
    | none => rw [hfa] at h; exact absurd h (by simp)
    | some b =>
      rw [hfa] at h
      cases hr : omapList f r with
      | none => rw [hr] at h; exact absurd h (by simp)
      | some t =>
        rw [hr] at h
        simp only [Option.some.injEq] at h
        subst h
        intro y hy
        rcases List.mem_cons.mp hy with rfl | hy2
        · exact ⟨a, List.mem_cons_self a r, hfa⟩
        · obtain ⟨x, hx, hfx⟩ := omapList_mem hr y hy2
          exact ⟨x, List.mem_cons_of_mem a hx, hfx⟩

theorem omapList_shift (x : α) (xs : List α) :
    ∀ {l : List Int}, (∀ i ∈ l, 0 ≤ i) →
      omapList (npGet (x :: xs)) (l.map (· + 1)) = omapList (npGet xs) l
  | [], _ => rfl
  | i :: r, h => by
    rw [List.map_cons]
    unfold omapList
    rw [npGet_cons_shift x xs (h i (List.mem_cons_self i r)),
      omapList_shift x xs (fun j hj => h j (List.mem_cons_of_mem i hj))]

theorem truePositions_nonneg : ∀ (bs : List Bool), ∀ i ∈ truePositions bs, 0 ≤ i
  | [], i, hi => absurd hi (by simp [truePositions])
  | b :: r, i, hi => by
    unfold truePositions at hi
    split_ifs at hi with hb
    · rcases List.mem_cons.mp hi with rfl | hi2
      · rfl
      · rw [List.mem_map] at hi2
        obtain ⟨j, hj, rfl⟩ := hi2
        have := truePositions_nonneg _ j hj
        omega
    · rw [List.mem_map] at hi
      obtain ⟨j, hj, rfl⟩ := hi
      have := truePositions_nonneg _ j hj
      omega

theorem omapList_truePositions :
    ∀ (bs : List Bool) (xs : List α), bs.length = xs.length →
      omapList (npGet xs) (truePositions bs) = some (boolSelect xs bs)
  | [], [], _ => rfl
  | b :: r, x :: xs, h => by
    have hlen : r.length = xs.length := by simpa using h
    unfold truePositions
    split_ifs with hb
    · rw [omapList_cons, npGet_zero,
        omapList_shift x xs (truePositions_nonneg r),
        omapList_truePositions r xs hlen]
      unfold boolSelect
      rw [List.zip_cons_cons, List.filter_cons]
      simp [hb]
    · rw [omapList_shift x xs (truePositions_nonneg r),
        omapList_truePositions r xs hlen]
      unfold boolSelect
      rw [List.zip_cons_cons, List.filter_cons]
      simp [hb]

theorem omapList_npGet_idRange :
    ∀ xs : List α, omapList (npGet xs) (idRange xs.length) = some xs
  | [] => rfl
  | x :: xs => by
    show omapList (npGet (x :: xs)) (idRange (xs.length + 1)) = _
    rw [idRange_succ]
    unfold omapList
    rw [npGet_zero, omapList_shift x xs (fun i hi => (mem_idRange.mp hi).1),
      omapList_npGet_idRange xs]

end CFIndex

namespace CFIndex

theorem omapList_map (f : β → Option γ) (g : α → β) :
    ∀ l : List α, omapList f (l.map g) = omapList (fun x => f (g x)) l
  | [] => rfl
  | a :: r => by
    rw [List.map_cons, omapList_cons, omapList_cons, omapList_map f g r]

theorem sliceElems_eq (s : Slc) (L : Nat) :
    sliceElems s L =
      (idRange (sliceLen (s.startVal L) (s.stopVal L) s.stepVal)).map
        (fun k => s.startVal L + s.stepVal * k) := rfl

theorem stepVal_literal (x y : Option Int) (st : Int) :
    (Slc.mk x y (some st)).stepVal = st := rfl

theorem startVal_some (v : Int) (y : Option Int) (st : Int) (L : Nat) :
    (Slc.mk (some v) y (some st)).startVal L =
      if st < 0 then clampIdx L (-1) ((L : Int) - 1) v else clampIdx L 0 L v := rfl

theorem stopVal_some (x : Option Int) (v : Int) (st : Int) (L : Nat) :
    (Slc.mk x (some v) (some st)).stopVal L =
      if st < 0 then clampIdx L (-1) ((L : Int) - 1) v else clampIdx L 0 L v := rfl

theorem stopVal_none (x : Option Int) (st : Int) (L : Nat) :
    (Slc.mk x none (some st)).stopVal L =
      if st < 0 then -1 else (L : Int) := rfl

theorem sliceElems_full (n : Nat) : sliceElems fullSlice n = idRange n := by
  have hstep : (fullSlice).stepVal = 1 := rfl
  have hstart : (fullSlice).startVal n = 0 := by
    show (if (fullSlice).stepVal < 0 then (n : Int) - 1 else 0) = 0
    rw [hstep]
    norm_num
  have hstop : (fullSlice).stopVal n = (n : Int) := by
    show (if (fullSlice).stepVal < 0 then -1 else (n : Int)) = (n : Int)
    rw [hstep]
    norm_num
  have hlen : sliceLen ((fullSlice).startVal n) ((fullSlice).stopVal n)
      (fullSlice).stepVal = n := by
    rw [hstart, hstop, hstep]
    unfold sliceLen ceilC
    rw [Int.fmod_one]
    simp [Int.fdiv_one]
  rw [sliceElems_eq, hlen, hstart, hstep]
  have hid : (fun (k : Int) => (0 : Int) + 1 * k) = id := by
    funext k
    simp
  rw [hid, List.map_id]

theorem compSlcParts_spec (L0 n0 : Nat) {n1 : Nat} {a0 st0 a1 b1 st1 : Int}
    (hst0 : st0 ≠ 0) (hst1 : st1 ≠ 0)
    (hn1 : n1 = sliceLen a1 b1 st1)
    (hpos1 : 1 ≤ n1)
    (hb0 : ∀ x : Int, 0 ≤ x → x < (n0 : Int) →
      0 ≤ a0 + st0 * x ∧ a0 + st0 * x < (L0 : Int))
    (hb1 : ∀ k : Int, 0 ≤ k → k < (n1 : Int) →
      0 ≤ a1 + st1 * k ∧ a1 + st1 * k < (n0 : Int)) :
    sliceElems (compSlcParts a0 st0 a1 b1 st1) L0
      = (idRange n1).map (fun k => a0 + st0 * (a1 + st1 * k)) := by
  have hst2 : st0 * st1 ≠ 0 := mul_ne_zero hst0 hst1
  have hceil1 : ceilC (b1 - a1) st1 = (n1 : Int) := by
    unfold sliceLen at hn1
    omega
  have hfirstB := hb1 0 le_rfl (by omega)
  have hf := hb0 (a1 + st1 * 0) hfirstB.1 hfirstB.2
  have hlastB := hb1 ((n1 : Int) - 1) (by omega) (by omega)
  have hl := hb0 (a1 + st1 * ((n1 : Int) - 1)) hlastB.1 hlastB.2
  have e0 : a0 + st0 * (a1 + st1 * 0) = a0 + a1 * st0 := by ring
  have eL : a0 + st0 * (a1 + st1 * ((n1 : Int) - 1))
      = a0 + a1 * st0 + ((n1 : Int) - 1) * (st0 * st1) := by ring
  rw [e0] at hf
  rw [eL] at hl
  unfold compSlcParts
  rw [hceil1]
  dsimp only
  have hmapc : ∀ c : Slc,
      (sliceLen (c.startVal L0) (c.stopVal L0) c.stepVal = n1) →
      (c.startVal L0 = a0 + a1 * st0) → (c.stepVal = st0 * st1) →
      sliceElems c L0 = (idRange n1).map (fun k => a0 + st0 * (a1 + st1 * k)) := by
    intro c hN hA hS
    rw [sliceElems_eq, hN, hA, hS]
    refine List.map_congr_left ?_
    intro k _
    ring
  by_cases hsgn : st0 * st1 > 0
  · rw [if_pos hsgn]
    rw [if_neg (by omega : ¬ a0 + a1 * st0 + ((n1 : Int) - 1) * (st0 * st1) + 1 < 0)]
    refine hmapc _ ?_ ?_ ?_
    · rw [startVal_some, stopVal_some, stepVal_literal,
        if_neg (by omega : ¬ st0 * st1 < 0), if_neg (by omega : ¬ st0 * st1 < 0)]
      unfold clampIdx
      rw [if_neg (by omega : ¬ a0 + a1 * st0 < 0),
        if_neg (by omega : ¬ a0 + a1 * st0 + ((n1 : Int) - 1) * (st0 * st1) + 1 < 0)]
      have hA2 : (a0 + a1 * st0) ⊓ (L0 : Int) = a0 + a1 * st0 := by omega
      have hB2 : (a0 + a1 * st0 + ((n1 : Int) - 1) * (st0 * st1) + 1) ⊓ (L0 : Int)
          = a0 + a1 * st0 + ((n1 : Int) - 1) * (st0 * st1) + 1 := by omega
      rw [hA2, hB2]
      have hcN : ceilC (a0 + a1 * st0 + ((n1 : Int) - 1) * (st0 * st1) + 1
          - (a0 + a1 * st0)) (st0 * st1) = (n1 : Int) := by
        have e2 : st0 * st1 * ((n1 : Int) + 1 - 1) = ((n1 : Int) - 1) * (st0 * st1) + st0 * st1 := by
          ring
        have e3 : st0 * st1 * ((n1 : Int) - 1) = ((n1 : Int) - 1) * (st0 * st1) := by
          ring
        have hup : ¬ ((n1 : Int) + 1 ≤ ceilC (a0 + a1 * st0 + ((n1 : Int) - 1) * (st0 * st1) + 1
            - (a0 + a1 * st0)) (st0 * st1)) := by
          rw [ceilC_ge_iff hsgn]
          omega
        have hdn : (n1 : Int) ≤ ceilC (a0 + a1 * st0 + ((n1 : Int) - 1) * (st0 * st1) + 1
            - (a0 + a1 * st0)) (st0 * st1) := by
          rw [ceilC_ge_iff hsgn]
          omega
        omega
      unfold sliceLen
      omega
    · rw [startVal_some, if_neg (by omega : ¬ st0 * st1 < 0)]
      unfold clampIdx
      rw [if_neg (by omega : ¬ a0 + a1 * st0 < 0)]
      omega
    · exact stepVal_literal _ _ _
  · have hneg : st0 * st1 < 0 := by omega
    rw [if_neg hsgn]
    by_cases hz : a0 + a1 * st0 + ((n1 : Int) - 1) * (st0 * st1) - 1 < 0
    · rw [if_pos hz]
      refine hmapc _ ?_ ?_ ?_
      · rw [startVal_some, stopVal_none, stepVal_literal,
          if_pos hneg, if_pos hneg]
        unfold clampIdx
        rw [if_neg (by omega : ¬ a0 + a1 * st0 < 0)]
        have hA2 : (a0 + a1 * st0) ⊓ ((L0 : Int) - 1) = a0 + a1 * st0 := by omega
        rw [hA2]
        have hcN : ceilC (-1 - (a0 + a1 * st0)) (st0 * st1) = (n1 : Int) := by
          have e2 : st0 * st1 * ((n1 : Int) + 1 - 1) = ((n1 : Int) - 1) * (st0 * st1) + st0 * st1 := by
            ring
          have e3 : st0 * st1 * ((n1 : Int) - 1) = ((n1 : Int) - 1) * (st0 * st1) := by
            ring
          have hup : ¬ ((n1 : Int) + 1 ≤ ceilC (-1 - (a0 + a1 * st0)) (st0 * st1)) := by
            rw [ceilC_ge_iff_neg hneg]
            omega
          have hdn : (n1 : Int) ≤ ceilC (-1 - (a0 + a1 * st0)) (st0 * st1) := by
            rw [ceilC_ge_iff_neg hneg]
            omega
          omega
        unfold sliceLen
        omega
      · rw [startVal_some, if_pos hneg]
        unfold clampIdx
        rw [if_neg (by omega : ¬ a0 + a1 * st0 < 0)]
        omega
      · exact stepVal_literal _ _ _
    · rw [if_neg hz]
      refine hmapc _ ?_ ?_ ?_
      · rw [startVal_some, stopVal_some, stepVal_literal, if_pos hneg, if_pos hneg]
        unfold clampIdx
        rw [if_neg (by omega : ¬ a0 + a1 * st0 < 0),
          if_neg (by omega : ¬ a0 + a1 * st0 + ((n1 : Int) - 1) * (st0 * st1) - 1 < 0)]
        have hA2 : (a0 + a1 * st0) ⊓ ((L0 : Int) - 1) = a0 + a1 * st0 := by omega
        have hB2 : (a0 + a1 * st0 + ((n1 : Int) - 1) * (st0 * st1) - 1) ⊓ ((L0 : Int) - 1)
            = a0 + a1 * st0 + ((n1 : Int) - 1) * (st0 * st1) - 1 := by omega
        rw [hA2, hB2]
        have hcN : ceilC (a0 + a1 * st0 + ((n1 : Int) - 1) * (st0 * st1) - 1
            - (a0 + a1 * st0)) (st0 * st1) = (n1 : Int) := by
          have e2 : st0 * st1 * ((n1 : Int) + 1 - 1) = ((n1 : Int) - 1) * (st0 * st1) + st0 * st1 := by
            ring
          have e3 : st0 * st1 * ((n1 : Int) - 1) = ((n1 : Int) - 1) * (st0 * st1) := by
            ring
          have hup : ¬ ((n1 : Int) + 1 ≤ ceilC (a0 + a1 * st0 + ((n1 : Int) - 1) * (st0 * st1) - 1
              - (a0 + a1 * st0)) (st0 * st1)) := by
            rw [ceilC_ge_iff_neg hneg]
            omega
          have hdn : (n1 : Int) ≤ ceilC (a0 + a1 * st0 + ((n1 : Int) - 1) * (st0 * st1) - 1
              - (a0 + a1 * st0)) (st0 * st1) := by
            rw [ceilC_ge_iff_neg hneg]
            omega
          omega
        unfold sliceLen
        omega
      · rw [startVal_some, if_pos hneg]
        unfold clampIdx
        rw [if_neg (by omega : ¬ a0 + a1 * st0 < 0)]
        omega
      · exact stepVal_literal _ _ _

end CFIndex

namespace CFIndex

theorem composeSlcSlc_sound {L0 : Nat} {s0 s1 : Slc}
    (h0 : s0.step ≠ some 0) (h1 : s1.step ≠ some 0)
    (hne : sliceElems s1 (sliceElems s0 L0).length ≠ []) :
    selIndex (sliceElems s0 L0) (.list (sliceElems s1 (sliceElems s0 L0).length))
      = some (.list (sliceElems (composeSlcSlc L0 (sliceElems s0 L0).length s0 s1) L0)) := by
  have hst0 := stepVal_ne_zero h0
  have hst1 := stepVal_ne_zero h1
  have hlen0 := sliceElems_length s0 L0
  generalize hN0 : (sliceElems s0 L0).length = n0 at *
  have hpos1 : 1 ≤ sliceLen (s1.startVal n0) (s1.stopVal n0) s1.stepVal := by
    have := List.length_pos.mpr hne
    rw [sliceElems_length s1 n0] at this
    exact this
  have hb1 : ∀ k : Int, 0 ≤ k →
      k < ((sliceLen (s1.startVal n0) (s1.stopVal n0) s1.stepVal : Nat) : Int) →
      0 ≤ s1.startVal n0 + s1.stepVal * k ∧
        s1.startVal n0 + s1.stepVal * k < (n0 : Int) := by
    intro k hk0 hk1
    exact sliceElems_bounds h1 _ (mem_sliceElems.mpr ⟨k, hk0, hk1, rfl⟩)
  have hb0 : ∀ x : Int, 0 ≤ x → x < (n0 : Int) →
      0 ≤ s0.startVal L0 + s0.stepVal * x ∧
        s0.startVal L0 + s0.stepVal * x < (L0 : Int) := by
    intro x hx0 hx1
    refine sliceElems_bounds h0 _ (mem_sliceElems.mpr ⟨x, hx0, ?_, rfl⟩)
    omega
  have hspec := compSlcParts_spec L0 n0 hst0 hst1 rfl hpos1 hb0 hb1
  show (omapList (npGet (sliceElems s0 L0)) (sliceElems s1 n0)).map Sel.list
      = some (.list (sliceElems (composeSlcSlc L0 n0 s0 s1) L0))
  have hcdef : composeSlcSlc L0 n0 s0 s1
      = compSlcParts (s0.startVal L0) s0.stepVal (s1.startVal n0) (s1.stopVal n0)
          s1.stepVal := rfl
  rw [hcdef, hspec, sliceElems_eq s1 n0, omapList_map]
  have hval : ∀ k ∈ idRange (sliceLen (s1.startVal n0) (s1.stopVal n0) s1.stepVal),
      npGet (sliceElems s0 L0) (s1.startVal n0 + s1.stepVal * k)
        = some (s0.startVal L0 + s0.stepVal * (s1.startVal n0 + s1.stepVal * k)) := by
    intro k hk
    obtain ⟨hk0, hk1⟩ := mem_idRange.mp hk
    obtain ⟨hx0, hx1⟩ := hb1 k hk0 hk1
    rw [npGet_eq hx0 (by omega)]
    have hxlt : (s1.startVal n0 + s1.stepVal * k).toNat < sliceLen (s0.startVal L0)
        (s0.stopVal L0) s0.stepVal := by omega
    rw [sliceElems_get hxlt]
    congr 1
    have hcast : ((s1.startVal n0 + s1.stepVal * k).toNat : Int)
        = s1.startVal n0 + s1.stepVal * k := by omega
    rw [hcast]
  rw [omapList_eq_map hval]
  rfl

end CFIndex

namespace CFIndex

theorem map_eint_bind (o : Option Int) (osize : Nat) :
    (o.map IEntry.eint).bind (selOfEntry osize) = o.map Sel.scal := by
  cases o <;> rfl

theorem map_earr_bind (o : Option (List Int)) (osize : Nat) :
    (o.map IEntry.earr).bind (selOfEntry osize) = o.map Sel.list := by
  cases o <;> rfl

theorem npIndexE_sound (xs : List Int) (osize : Nat) (p : PEntry) :
    (npIndexE xs p).bind (selOfEntry osize) = (selOfP xs.length p).bind (selIndex xs) := by
  cases p with
  | pint i =>
    show ((npGet xs i).map IEntry.eint).bind (selOfEntry osize)
      = ((npGet (idRange xs.length) i).map Sel.scal).bind (selIndex xs)
    rw [map_eint_bind]
    have hvi := npGet_via_idRange xs i
    cases hA : npGet (idRange xs.length) i with
    | none =>
      rw [hA, Option.none_bind] at hvi
      rw [← hvi]
      rfl
    | some j =>
      rw [hA, Option.some_bind] at hvi
      rw [← hvi]
      rfl
  | parr is =>
    show ((omapList (npGet xs) is).map IEntry.earr).bind (selOfEntry osize)
      = ((omapList (npGet (idRange xs.length)) is).map Sel.list).bind (selIndex xs)
    rw [map_earr_bind]
    have hvi := omapList_comp (fun i => npGet_via_idRange xs i) is
    cases hA : omapList (npGet (idRange xs.length)) is with
    | none =>
      rw [hA, Option.none_bind] at hvi
      rw [← hvi]
      rfl
    | some js =>
      rw [hA, Option.some_bind] at hvi
      rw [← hvi]
      rfl
  | pbool bs =>
    show (if bs.length = xs.length then some (IEntry.earr (boolSelect xs bs)) else none).bind
        (selOfEntry osize)
      = (if bs.length = xs.length then some (Sel.list (truePositions bs)) else none).bind
        (selIndex xs)
    split_ifs with hlen
    · rw [Option.some_bind, Option.some_bind]
      show some (Sel.list (boolSelect xs bs))
        = (omapList (npGet xs) (truePositions bs)).map Sel.list
      rw [omapList_truePositions bs xs hlen]
      rfl
    · rfl
  | psl s =>
    show ((omapList (npGet xs) (sliceElems s xs.length)).map IEntry.earr).bind
        (selOfEntry osize)
      = (some (Sel.list (sliceElems s xs.length))).bind (selIndex xs)
    rw [map_earr_bind, Option.some_bind]
    rfl

theorem selIndex_full (xs : List Int) :
    selIndex xs (.list (sliceElems fullSlice xs.length)) = some (.list xs) := by
  rw [sliceElems_full]
  show (omapList (npGet xs) (idRange xs.length)).map Sel.list = _
  rw [omapList_npGet_idRange]
  rfl

theorem selIndex_idRange {n : Nat} {s : Sel} (hc : selCanonB n s = true) :
    selIndex (idRange n) s = some s := by
  cases s with
  | scal i =>
    have hb : 0 ≤ i ∧ i < (n : Int) := by simpa [selCanonB] using hc
    show (npGet (idRange n) i).map Sel.scal = some (Sel.scal i)
    rw [npGet_eq hb.1 (by rw [idRange_length]; exact hb.2), idRange_get (by omega)]
    have : ((i.toNat : Nat) : Int) = i := by omega
    rw [this]
    rfl
  | list xs =>
    have hb : ∀ x ∈ xs, 0 ≤ x ∧ x < (n : Int) := by
      intro x hx
      have := (List.all_eq_true.mp hc) x hx
      simpa using this
    show (omapList (npGet (idRange n)) xs).map Sel.list = some (Sel.list xs)
    have hpt : ∀ x ∈ xs, npGet (idRange n) x = some (id x) := by
      intro x hx
      obtain ⟨h0, h1⟩ := hb x hx
      rw [npGet_eq h0 (by rw [idRange_length]; exact h1), idRange_get (by omega)]
      have : ((x.toNat : Nat) : Int) = x := by omega
      rw [this]
      rfl
    rw [omapList_eq_map hpt, List.map_id]
    rfl

theorem truePositions_lt : ∀ {bs : List Bool}, ∀ i ∈ truePositions bs, i < (bs.length : Int)
  | [], i, hi => absurd hi (by simp [truePositions])
  | b :: r, i, hi => by
    unfold truePositions at hi
    rw [List.length_cons]
    split_ifs at hi with hb
    · rcases List.mem_cons.mp hi with rfl | hi2
      · have := truePositions_nonneg r
        push_cast
        omega
      · rw [List.mem_map] at hi2
        obtain ⟨j, hj, rfl⟩ := hi2
        have := truePositions_lt j hj
        push_cast
        omega
    · rw [List.mem_map] at hi
      obtain ⟨j, hj, rfl⟩ := hi
      have := truePositions_lt j hj
      push_cast
      omega

theorem selOfP_canon {size : Nat} {p : PEntry} {s : Sel}
    (hok : pEntryOk p = true) (h : selOfP size p = some s) :
    selCanonB size s = true := by
  cases p with
  | psl s1 =>
    have hstep : s1.step ≠ some 0 := by simpa [pEntryOk] using hok
    have hs : s = .list (sliceElems s1 size) := by
      simpa [selOfP] using h.symm
    subst hs
    unfold selCanonB
    rw [List.all_eq_true]
    intro x hx
    have := sliceElems_bounds hstep x hx
    simpa using this
  | pint i =>
    simp only [selOfP] at h
    cases hg : npGet (idRange size) i with
    | none => rw [hg] at h; exact absurd h (by simp)
    | some j =>
      rw [hg] at h
      simp only [Option.map_some', Option.some.injEq] at h
      subst h
      have := mem_idRange.mp (npGet_mem hg)
      unfold selCanonB
      simpa using this
  | parr is =>
    simp only [selOfP] at h
    cases hg : omapList (npGet (idRange size)) is with
    | none => rw [hg] at h; exact absurd h (by simp)
    | some js =>
      rw [hg] at h
      simp only [Option.map_some', Option.some.injEq] at h
      subst h
      unfold selCanonB
      rw [List.all_eq_true]
      intro x hx
      obtain ⟨y, _, hy⟩ := omapList_mem hg x hx
      have := mem_idRange.mp (npGet_mem hy)
      simpa using this
  | pbool bs =>
    simp only [selOfP] at h
    split_ifs at h with hlen
    · simp only [Option.some.injEq] at h
      subst h
      unfold selCanonB
      rw [List.all_eq_true]
      intro x hx
      have h1 := truePositions_nonneg _ x hx
      have h2 := truePositions_lt x hx
      rw [hlen] at h2
      simp only [decide_eq_true_eq]
      exact ⟨h1, h2⟩

theorem selOfEntry_canon {osize : Nat} {e : IEntry} {s : Sel}
    (hw : entryWF osize e = true) (h : selOfEntry osize e = some s) :
    selCanonB osize s = true := by
  cases e with
  | esl s0 =>
    have hstep : s0.step ≠ some 0 := by simpa [entryWF] using hw
    have hs : s = .list (sliceElems s0 osize) := by
      simpa [selOfEntry] using h.symm
    subst hs
    unfold selCanonB
    rw [List.all_eq_true]
    intro x hx
    have := sliceElems_bounds hstep x hx
    simpa using this
  | eint i =>
    have hs : s = .scal i := by simpa [selOfEntry] using h.symm
    subst hs
    unfold selCanonB
    simpa [entryWF] using hw
  | earr xs =>
    have hs : s = .list xs := by simpa [selOfEntry] using h.symm
    subst hs
    unfold selCanonB
    unfold entryWF at hw
    exact hw
  | ebool bs => exact absurd h (by simp [selOfEntry])
  | eboolscalar b => exact absurd h (by simp [selOfEntry])

end CFIndex

namespace CFIndex

theorem compSlcParts_step (a st a1 b1 st1 : Int) :
    (compSlcParts a st a1 b1 st1).step = some (st * st1) := by
  unfold compSlcParts
  dsimp only
  split_ifs <;> rfl

theorem composeEntry_sound {osize : Nat} {ind0 : IEntry} {ind1 : PEntry} (xs : List Int)
    (hw : entryWF osize ind0 = true) (hok : pEntryOk ind1 = true)
    (hsel0 : selOfEntry osize ind0 = some (.list xs))
    (hne : slcPairNE xs.length ind0 ind1) :
    (composeEntry osize xs.length ind0 ind1).bind (selOfEntry osize)
      = (selOfP xs.length ind1).bind (selIndex xs) := by
  cases ind0 with
  | esl s0 =>
    have hstep0 : s0.step ≠ some 0 := by simpa [entryWF] using hw
    have hx : sliceElems s0 osize = xs := by
      simpa [selOfEntry, Sel.list.injEq] using hsel0
    subst hx
    cases ind1 with
    | psl s1 =>
      have hstep1 : s1.step ≠ some 0 := by simpa [pEntryOk] using hok
      have hne2 : sliceElems s1 (sliceElems s0 osize).length ≠ [] := hne
      exact (composeSlcSlc_sound hstep0 hstep1 hne2).symm
    | pint i =>
      simp only [composeEntry]
      exact npIndexE_sound (sliceElems s0 osize) osize _
    | parr is =>
      simp only [composeEntry]
      exact npIndexE_sound (sliceElems s0 osize) osize _
    | pbool bs =>
      simp only [composeEntry]
      exact npIndexE_sound (sliceElems s0 osize) osize _
  | earr ys =>
    have hx : ys = xs := by simpa [selOfEntry, Sel.list.injEq] using hsel0
    subst hx
    simp only [composeEntry]
    exact npIndexE_sound ys osize ind1
  | eint i => simp [selOfEntry] at hsel0
  | ebool bs => simp [entryWF] at hw
  | eboolscalar b => simp [entryWF] at hw

theorem boolSelect_mem {xs : List α} {bs : List Bool} {y : α}
    (h : y ∈ boolSelect xs bs) : y ∈ xs := by
  unfold boolSelect at h
  rw [List.mem_map] at h
  obtain ⟨p, hp, rfl⟩ := h
  have := List.mem_filter.mp hp
  exact (List.of_mem_zip this.1).1

theorem npIndexE_wf {osize : Nat} {xs : List Int} {p : PEntry} {e : IEntry}
    (hxs : ∀ x ∈ xs, 0 ≤ x ∧ x < (osize : Int))
    (h : npIndexE xs p = some e) : entryWF osize e = true := by
  cases p with
  | pint i =>
    simp only [npIndexE] at h
    cases hg : npGet xs i with
    | none => rw [hg] at h; exact absurd h (by simp)
    | some v =>
      rw [hg] at h
      simp only [Option.map_some', Option.some.injEq] at h
      subst h
      have := hxs v (npGet_mem hg)
      simpa [entryWF] using this
  | parr is =>
    simp only [npIndexE] at h
    cases hg : omapList (npGet xs) is with
    | none => rw [hg] at h; exact absurd h (by simp)
    | some js =>
      rw [hg] at h
      simp only [Option.map_some', Option.some.injEq] at h
      subst h
      unfold entryWF
      rw [List.all_eq_true]
      intro y hy
      obtain ⟨z, _, hz⟩ := omapList_mem hg y hy
      have := hxs y (npGet_mem hz)
      simpa using this
  | pbool bs =>
    simp only [npIndexE] at h
    split_ifs at h with hlen
    · simp only [Option.some.injEq] at h
      subst h
      unfold entryWF
      rw [List.all_eq_true]
      intro y hy
      have := hxs y (boolSelect_mem hy)
      simpa using this
  | psl s =>
    simp only [npIndexE] at h
    cases hg : omapList (npGet xs) (sliceElems s xs.length) with
    | none => rw [hg] at h; exact absurd h (by simp)
    | some js =>
      rw [hg] at h
      simp only [Option.map_some', Option.some.injEq] at h
      subst h
      unfold entryWF
      rw [List.all_eq_true]
      intro y hy
      obtain ⟨z, _, hz⟩ := omapList_mem hg y hy
      have := hxs y (npGet_mem hz)
      simpa using this

theorem composeEntry_wf {osize size0 : Nat} {ind0 : IEntry} {ind1 : PEntry} {e : IEntry}
    (hw : entryWF osize ind0 = true) (hok : pEntryOk ind1 = true)
    (h : composeEntry osize size0 ind0 ind1 = some e) : entryWF osize e = true := by
  cases ind0 with
  | esl s0 =>
    have hstep0 : s0.step ≠ some 0 := by simpa [entryWF] using hw
    have hxs : ∀ x ∈ sliceElems s0 osize, 0 ≤ x ∧ x < (osize : Int) :=
      sliceElems_bounds hstep0
    cases ind1 with
    | psl s1 =>
      have hstep1 : s1.step ≠ some 0 := by simpa [pEntryOk] using hok
      simp only [composeEntry, Option.some.injEq] at h
      subst h
      have hmul := mul_ne_zero (stepVal_ne_zero hstep0) (stepVal_ne_zero hstep1)
      simp only [entryWF, decide_eq_true_eq]
      show (compSlcParts (s0.startVal osize) s0.stepVal (s1.startVal size0)
        (s1.stopVal size0) s1.stepVal).step ≠ some 0
      rw [compSlcParts_step]
      simp [hmul]
    | pint i =>
      simp only [composeEntry] at h
      exact npIndexE_wf hxs h
    | parr is =>
      simp only [composeEntry] at h
      exact npIndexE_wf hxs h
    | pbool bs =>
      simp only [composeEntry] at h
      exact npIndexE_wf hxs h
  | earr ys =>
    have hxs : ∀ x ∈ ys, 0 ≤ x ∧ x < (osize : Int) := by
      intro x hx
      have := (List.all_eq_true.mp hw) x hx
      simpa using this
    simp only [composeEntry] at h
    exact npIndexE_wf hxs h
  | eint i =>
    simp only [composeEntry, Option.some.injEq] at h
    subst h
    exact hw
  | ebool bs => simp [entryWF] at hw
  | eboolscalar b => simp [entryWF] at hw

end CFIndex

namespace CFIndex

theorem selsOfS_cons {e : IEntry} {r : List IEntry} {n : Nat} {ns : List Nat}
    {sels : List Sel} (h : selsOfS (e :: r) (n :: ns) = some sels) :
    ∃ s t, selOfEntry n e = some s ∧ selsOfS r ns = some t ∧ sels = s :: t := by
  unfold selsOfS at h
  cases h1 : selOfEntry n e with
  | none => rw [h1] at h; exact absurd h (by simp)
  | some s =>
    rw [h1] at h
    cases h2 : selsOfS r ns with
    | none => rw [h2] at h; exact absurd h (by simp)
    | some t =>
      rw [h2] at h
      simp only [Option.some.injEq] at h
      exact ⟨s, t, rfl, rfl, h.symm⟩

theorem selsOfP_cons {e : PEntry} {r : List PEntry} {n : Nat} {ns : List Nat}
    {sels : List Sel} (h : selsOfP (e :: r) (n :: ns) = some sels) :
    ∃ s t, selOfP n e = some s ∧ selsOfP r ns = some t ∧ sels = s :: t := by
  unfold selsOfP at h
  cases h1 : selOfP n e with
  | none => rw [h1] at h; exact absurd h (by simp)
  | some s =>
    rw [h1] at h
    cases h2 : selsOfP r ns with
    | none => rw [h2] at h; exact absurd h (by simp)
    | some t =>
      rw [h2] at h
      simp only [Option.some.injEq] at h
      exact ⟨s, t, rfl, rfl, h.symm⟩

theorem selsOfS_cons_eq {e : IEntry} {r : List IEntry} {n : Nat} {ns : List Nat}
    {s : Sel} (h1 : selOfEntry n e = some s) :
    selsOfS (e :: r) (n :: ns)
      = (selsOfS r ns).map (s :: ·) := by
  show (match selOfEntry n e, selsOfS r ns with
    | some s, some t => some (s :: t)
    | _, _ => none) = (selsOfS r ns).map (s :: ·)
  rw [h1]
  cases selsOfS r ns <;> rfl

theorem composeSels_scal (i : Int) (r : List Sel) (t : List Sel) :
    composeSels (.scal i :: r) t = (composeSels r t).map (.scal i :: ·) := rfl

theorem composeSels_list (xs : List Int) (r : List Sel) (s : Sel) (t : List Sel) :
    composeSels (.list xs :: r) (s :: t)
      = match selIndex xs s, composeSels r t with
        | some u, some v => some (u :: v)
        | _, _ => none := rfl

theorem composeLoop_sound :
    ∀ (ind0 : List IEntry) (oshape shape0 : List Nat) (ix : List PEntry)
      (sels0 sels1 : List Sel) (new : List IEntry),
      storedWF ind0 oshape = true →
      ix.all pEntryOk = true →
      shape0 = indices_shape ind0 oshape →
      selsOfS ind0 oshape = some sels0 →
      selsOfP ix shape0 = some sels1 →
      slicesNE ix shape0 = true →
      composeLoop ind0 oshape shape0 ix = some new →
      selsOfS new oshape = composeSels sels0 sels1
  | [], oshape, shape0, ix, sels0, sels1, new, hwf, hok, hsh, hs0, hs1, hne, hloop => by
    cases oshape with
    | cons n ns => exact absurd hwf (by simp [storedWF])
    | nil =>
      have hsels0 : sels0 = [] := by
        simpa [selsOfS] using hs0.symm
      have hsh2 : shape0 = [] := by simpa [indices_shape] using hsh
      subst hsh2
      cases ix with
      | cons p pr => exact absurd hs1 (by simp [selsOfP])
      | nil =>
        have hsels1 : sels1 = [] := by simpa [selsOfP] using hs1.symm
        have hnew : new = [] := by simpa [composeLoop] using hloop.symm
        subst hsels0; subst hsels1; subst hnew
        rfl
  | e :: r0, oshape, shape0, ix, sels0, sels1, new, hwf, hok, hsh, hs0, hs1, hne, hloop => by
    cases oshape with
    | nil => exact absurd hwf (by simp [storedWF])
    | cons n ns =>
      have hwf1 : entryWF n e = true ∧ storedWF r0 ns = true := by
        simpa [storedWF, Bool.and_eq_true] using hwf
      obtain ⟨s_e, sels0t, hse, hs0t, rfl⟩ := selsOfS_cons hs0
      cases e with
      | eint i =>
        have hsei : s_e = .scal i := by simpa [selOfEntry] using hse.symm
        subst hsei
        have hsh2 : shape0 = indices_shape r0 ns := by
          simpa [indices_shape] using hsh
        simp only [composeLoop] at hloop
        cases hrec : composeLoop r0 ns shape0 ix with
        | none => rw [hrec] at hloop; exact absurd hloop (by simp)
        | some rest =>
          rw [hrec] at hloop
          simp only [Option.map_some', Option.some.injEq] at hloop
          subst hloop
          have IH := composeLoop_sound r0 ns shape0 ix sels0t sels1 rest
            hwf1.2 hok hsh2 hs0t hs1 hne hrec
          rw [selsOfS_cons_eq (by rfl : selOfEntry n (.eint i) = some (.scal i)), IH,
            composeSels_scal]
      | esl s0 =>
        -- the stored entry selects the list of slice positions
        have hsel : selOfEntry n (.esl s0) = some (.list (sliceElems s0 n)) := rfl
        have hseq : s_e = .list (sliceElems s0 n) := by
          have := hse.symm.trans hsel
          simpa using this
        subst hseq
        have hsh2 : shape0 = (sliceElems s0 n).length :: indices_shape r0 ns := by
          simpa [indices_shape] using hsh
        subst hsh2
        cases ix with
        | nil => exact absurd hs1 (by simp [selsOfP])
        | cons ind1 rIx =>
          obtain ⟨sh1, sels1t, hsh1, hs1t, rfl⟩ := selsOfP_cons hs1
          have hok1 : pEntryOk ind1 = true ∧ rIx.all pEntryOk = true := by
            simpa [List.all_cons, Bool.and_eq_true] using hok
          simp only [composeLoop] at hloop
          by_cases hfull : ind1 = .psl fullSlice
          · subst hfull
            rw [if_pos rfl] at hloop
            cases hrec : composeLoop r0 ns (indices_shape r0 ns) rIx with
            | none => rw [hrec] at hloop; exact absurd hloop (by simp)
            | some rest =>
              rw [hrec] at hloop
              simp only [Option.some.injEq] at hloop
              subst hloop
              have hnetail : slicesNE rIx (indices_shape r0 ns) = true := by
                have := hne
                simp only [slicesNE, Bool.and_eq_true] at this
                exact this.2
              have IH := composeLoop_sound r0 ns (indices_shape r0 ns) rIx sels0t sels1t rest
                hwf1.2 hok1.2 rfl hs0t hs1t hnetail hrec
              have hsh1v : sh1 = .list (sliceElems fullSlice (sliceElems s0 n).length) := by
                simpa [selOfP] using hsh1.symm
              subst hsh1v
              rw [selsOfS_cons_eq hsel, IH, composeSels_list]
              rw [selIndex_full (sliceElems s0 n)]
              cases composeSels sels0t sels1t <;> rfl
          · rw [if_neg hfull] at hloop
            cases hce : composeEntry n (sliceElems s0 n).length (.esl s0) ind1 with
            | none => rw [hce] at hloop; exact absurd hloop (by simp)
            | some e2 =>
              rw [hce] at hloop
              cases hrec : composeLoop r0 ns (indices_shape r0 ns) rIx with
              | none => rw [hrec] at hloop; exact absurd hloop (by simp)
              | some rest =>
                rw [hrec] at hloop
                simp only [Option.some.injEq] at hloop
                subst hloop
                have hnehead : slcPairNE (sliceElems s0 n).length (.esl s0) ind1 := by
                  cases ind1 with
                  | psl s1 =>
                    have hne2 := hne
                    simp only [slicesNE, Bool.and_eq_true, Bool.or_eq_true,
                      decide_eq_true_eq] at hne2
                    rcases hne2.1 with hq | hq
                    · exact absurd (show PEntry.psl s1 = PEntry.psl fullSlice by rw [hq]) hfull
                    · exact hq
                  | pint i => trivial
                  | parr is => trivial
                  | pbool bs => trivial
                have hnetail : slicesNE rIx (indices_shape r0 ns) = true := by
                  cases ind1 with
                  | psl s1 =>
                    have := hne
                    simp only [slicesNE, Bool.and_eq_true] at this
                    exact this.2
                  | pint i => simpa [slicesNE] using hne
                  | parr is => simpa [slicesNE] using hne
                  | pbool bs => simpa [slicesNE] using hne
                have IH := composeLoop_sound r0 ns (indices_shape r0 ns) rIx sels0t sels1t rest
                  hwf1.2 hok1.2 rfl hs0t hs1t hnetail hrec
                have hsound := composeEntry_sound (sliceElems s0 n)
                  hwf1.1 hok1.1 hsel hnehead
                rw [hce, Option.some_bind, hsh1, Option.some_bind] at hsound
                rw [composeSels_list, ← hsound, ← IH]
                rfl
      | earr ys =>
        have hsel : selOfEntry n (.earr ys) = some (.list ys) := rfl
        have hseq : s_e = .list ys := by
          have := hse.symm.trans hsel
          simpa using this
        subst hseq
        have hsh2 : shape0 = ys.length :: indices_shape r0 ns := by
          simpa [indices_shape] using hsh
        subst hsh2
        cases ix with
        | nil => exact absurd hs1 (by simp [selsOfP])
        | cons ind1 rIx =>
          obtain ⟨sh1, sels1t, hsh1, hs1t, rfl⟩ := selsOfP_cons hs1
          have hok1 : pEntryOk ind1 = true ∧ rIx.all pEntryOk = true := by
            simpa [List.all_cons, Bool.and_eq_true] using hok
          simp only [composeLoop] at hloop
          by_cases hfull : ind1 = .psl fullSlice
          · subst hfull
            rw [if_pos rfl] at hloop
            cases hrec : composeLoop r0 ns (indices_shape r0 ns) rIx with
            | none => rw [hrec] at hloop; exact absurd hloop (by simp)
            | some rest =>
              rw [hrec] at hloop
              simp only [Option.some.injEq] at hloop
              subst hloop
              have hnetail : slicesNE rIx (indices_shape r0 ns) = true := by
                have := hne
                simp only [slicesNE, Bool.and_eq_true] at this
                exact this.2
              have IH := composeLoop_sound r0 ns (indices_shape r0 ns) rIx sels0t sels1t rest
                hwf1.2 hok1.2 rfl hs0t hs1t hnetail hrec
              have hsh1v : sh1 = .list (sliceElems fullSlice ys.length) := by
                simpa [selOfP] using hsh1.symm
              subst hsh1v
              rw [selsOfS_cons_eq hsel, IH, composeSels_list]
              rw [selIndex_full ys]
              cases composeSels sels0t sels1t <;> rfl
          · rw [if_neg hfull] at hloop
            cases hce : composeEntry n ys.length (.earr ys) ind1 with
            | none => rw [hce] at hloop; exact absurd hloop (by simp)
            | some e2 =>
              rw [hce] at hloop
              cases hrec : composeLoop r0 ns (indices_shape r0 ns) rIx with
              | none => rw [hrec] at hloop; exact absurd hloop (by simp)
              | some rest =>
                rw [hrec] at hloop
                simp only [Option.some.injEq] at hloop
                subst hloop
                have hnehead : slcPairNE ys.length (.earr ys) ind1 := by
                  cases ind1 <;> trivial
                have hnetail : slicesNE rIx (indices_shape r0 ns) = true := by
                  cases ind1 with
                  | psl s1 =>
                    have := hne
                    simp only [slicesNE, Bool.and_eq_true] at this
                    exact this.2
                  | pint i => simpa [slicesNE] using hne
                  | parr is => simpa [slicesNE] using hne
                  | pbool bs => simpa [slicesNE] using hne
                have IH := composeLoop_sound r0 ns (indices_shape r0 ns) rIx sels0t sels1t rest
                  hwf1.2 hok1.2 rfl hs0t hs1t hnetail hrec
                have hsound := composeEntry_sound ys
                  hwf1.1 hok1.1 hsel hnehead
                rw [hce, Option.some_bind, hsh1, Option.some_bind] at hsound
                rw [composeSels_list, ← hsound, ← IH]
                rfl
      | ebool bs => exact absurd hwf1.1 (by simp [entryWF])
      | eboolscalar b => exact absurd hwf1.1 (by simp [entryWF])

end CFIndex

namespace CFIndex

theorem composeLoop_wf :
    ∀ (ind0 : List IEntry) (oshape shape0 : List Nat) (ix : List PEntry)
      (new : List IEntry),
      storedWF ind0 oshape = true → ix.all pEntryOk = true →
      composeLoop ind0 oshape shape0 ix = some new →
      storedWF new oshape = true
  | [], oshape, shape0, ix, new, hwf, hok, hloop => by
    cases oshape with
    | cons n ns => exact absurd hwf (by simp [storedWF])
    | nil =>
      have hnew : new = [] := by simpa [composeLoop] using hloop.symm
      subst hnew
      rfl
  | e :: r0, oshape, shape0, ix, new, hwf, hok, hloop => by
    cases oshape with
    | nil => exact absurd hwf (by simp [storedWF])
    | cons n ns =>
      have hwf1 : entryWF n e = true ∧ storedWF r0 ns = true := by
        simpa [storedWF, Bool.and_eq_true] using hwf
      cases e with
      | eint i =>
        simp only [composeLoop] at hloop
        cases hrec : composeLoop r0 ns shape0 ix with
        | none => rw [hrec] at hloop; exact absurd hloop (by simp)
        | some rest =>
          rw [hrec] at hloop
          simp only [Option.map_some', Option.some.injEq] at hloop
          subst hloop
          have IH := composeLoop_wf r0 ns shape0 ix rest hwf1.2 hok hrec
          show (entryWF n (.eint i) && storedWF rest ns) = true
          rw [hwf1.1, IH]
          rfl
      | ebool bs => exact absurd hwf1.1 (by simp [entryWF])
      | eboolscalar b => exact absurd hwf1.1 (by simp [entryWF])
      | esl s0 =>
        cases shape0 with
        | nil => exact absurd hloop (by simp [composeLoop])
        | cons sz rSh =>
          cases ix with
          | nil => exact absurd hloop (by simp [composeLoop])
          | cons ind1 rIx =>
            have hok1 : pEntryOk ind1 = true ∧ rIx.all pEntryOk = true := by
              simpa [List.all_cons, Bool.and_eq_true] using hok
            simp only [composeLoop] at hloop
            cases hcei : (if ind1 = .psl fullSlice then some (IEntry.esl s0)
                else composeEntry n sz (.esl s0) ind1) with
            | none => rw [hcei] at hloop; exact absurd hloop (by simp)
            | some e2 =>
              rw [hcei] at hloop
              cases hrec : composeLoop r0 ns rSh rIx with
              | none => rw [hrec] at hloop; exact absurd hloop (by simp)
              | some rest =>
                rw [hrec] at hloop
                simp only [Option.some.injEq] at hloop
                subst hloop
                have IH := composeLoop_wf r0 ns rSh rIx rest hwf1.2 hok1.2 hrec
                have hw2 : entryWF n e2 = true := by
                  by_cases hfull : ind1 = .psl fullSlice
                  · rw [if_pos hfull] at hcei
                    simp only [Option.some.injEq] at hcei
                    rw [← hcei]
                    exact hwf1.1
                  · rw [if_neg hfull] at hcei
                    exact composeEntry_wf hwf1.1 hok1.1 hcei
                show (entryWF n e2 && storedWF rest ns) = true
                rw [hw2, IH]
                rfl
      | earr ys =>
        cases shape0 with
        | nil => exact absurd hloop (by simp [composeLoop])
        | cons sz rSh =>
          cases ix with
          | nil => exact absurd hloop (by simp [composeLoop])
          | cons ind1 rIx =>
            have hok1 : pEntryOk ind1 = true ∧ rIx.all pEntryOk = true := by
              simpa [List.all_cons, Bool.and_eq_true] using hok
            simp only [composeLoop] at hloop
            cases hcei : (if ind1 = .psl fullSlice then some (IEntry.earr ys)
                else composeEntry n sz (.earr ys) ind1) with
            | none => rw [hcei] at hloop; exact absurd hloop (by simp)
            | some e2 =>
              rw [hcei] at hloop
              cases hrec : composeLoop r0 ns rSh rIx with
              | none => rw [hrec] at hloop; exact absurd hloop (by simp)
              | some rest =>
                rw [hrec] at hloop
                simp only [Option.some.injEq] at hloop
                subst hloop
                have IH := composeLoop_wf r0 ns rSh rIx rest hwf1.2 hok1.2 hrec
                have hw2 : entryWF n e2 = true := by
                  by_cases hfull : ind1 = .psl fullSlice
                  · rw [if_pos hfull] at hcei
                    simp only [Option.some.injEq] at hcei
                    rw [← hcei]
                    exact hwf1.1
                  · rw [if_neg hfull] at hcei
                    exact composeEntry_wf hwf1.1 hok1.1 hcei
                show (entryWF n e2 && storedWF rest ns) = true
                rw [hw2, IH]
                rfl

theorem selsOfS_exists :
    ∀ {ind : List IEntry} {oshape : List Nat},
      storedWF ind oshape = true → ∃ sels, selsOfS ind oshape = some sels
  | [], [], _ => ⟨[], rfl⟩
  | [], _ :: _, hwf => absurd hwf (by simp [storedWF])
  | _ :: _, [], hwf => absurd hwf (by simp [storedWF])
  | e :: r, n :: ns, hwf => by
    have hwf1 : entryWF n e = true ∧ storedWF r ns = true := by
      simpa [storedWF, Bool.and_eq_true] using hwf
    obtain ⟨t, ht⟩ := selsOfS_exists hwf1.2
    cases e with
    | esl s0 =>
      exact ⟨_, by
        rw [selsOfS_cons_eq (show selOfEntry n (.esl s0)
          = some (.list (sliceElems s0 n)) from rfl), ht]; rfl⟩
    | eint i =>
      exact ⟨_, by
        rw [selsOfS_cons_eq (show selOfEntry n (.eint i)
          = some (.scal i) from rfl), ht]; rfl⟩
    | earr xs =>
      exact ⟨_, by
        rw [selsOfS_cons_eq (show selOfEntry n (.earr xs)
          = some (.list xs) from rfl), ht]; rfl⟩
    | ebool bs => exact absurd hwf1.1 (by simp [entryWF])
    | eboolscalar b => exact absurd hwf1.1 (by simp [entryWF])

theorem indices_shape_eq_selShape :
    ∀ {ind : List IEntry} {oshape : List Nat} {sels : List Sel},
      selsOfS ind oshape = some sels → indices_shape ind oshape = selShape sels
  | [], [], sels, h => by
    have : sels = [] := by simpa [selsOfS] using h.symm
    subst this
    rfl
  | [], _ :: _, sels, h => absurd h (by simp [selsOfS])
  | _ :: _, [], sels, h => absurd h (by simp [selsOfS])
  | e :: r, n :: ns, sels, h => by
    obtain ⟨s, t, hs, ht, rfl⟩ := selsOfS_cons h
    have IH := indices_shape_eq_selShape ht
    cases e with
    | esl s0 =>
      have hsv : s = .list (sliceElems s0 n) := by simpa [selOfEntry] using hs.symm
      subst hsv
      show (sliceElems s0 n).length :: indices_shape r ns = _
      rw [IH]
      rfl
    | eint i =>
      have hsv : s = .scal i := by simpa [selOfEntry] using hs.symm
      subst hsv
      show indices_shape r ns = _
      rw [IH]
      rfl
    | earr xs =>
      have hsv : s = .list xs := by simpa [selOfEntry] using hs.symm
      subst hsv
      show xs.length :: indices_shape r ns = _
      rw [IH]
      rfl
    | ebool bs => exact absurd hs (by simp [selOfEntry])
    | eboolscalar b => exact absurd hs (by simp [selOfEntry])

theorem parse_indices_some {shape : List Nat} {ix ix2 : List PEntry}
    (h : parse_indices shape ix = some ix2) :
    ix2 = ix ∧ ix.length = shape.length ∧ ix.all pEntryOk = true := by
  unfold parse_indices at h
  split_ifs at h with hc
  · simp only [Option.some.injEq] at h
    exact ⟨h.symm, hc.1, hc.2⟩

theorem touch_source (a : LazyArr) : (touch a).source = a.source := by
  unfold touch
  cases a.custom_index <;> rfl

theorem touch_shape (a : LazyArr) : (touch a).shape = a.shape := by
  unfold touch
  cases a.custom_index <;> rfl

theorem touch_isSome (a : LazyArr) : ∃ l, (touch a).custom_index = some l := by
  unfold touch
  cases h : a.custom_index with
  | none => exact ⟨_, rfl⟩
  | some l => exact ⟨l, h⟩

theorem touch_eq_of_some {b : LazyArr} {l : List IEntry}
    (h : b.custom_index = some l) : touch b = b := by
  unfold touch
  rw [h]

theorem touch_touch (a : LazyArr) : touch (touch a) = touch a := by
  obtain ⟨l, hl⟩ := touch_isSome a
  exact touch_eq_of_some hl

theorem indexVal_touch (a : LazyArr) : indexVal (touch a) = indexVal a := by
  unfold indexVal
  rw [touch_touch]

theorem indexVal_of_some {a : LazyArr} {l : List IEntry}
    (h : a.custom_index = some l) : indexVal a = l := by
  unfold indexVal
  rw [touch_eq_of_some h, h]
  rfl

theorem touch_oshape (a : LazyArr)
    (hc : a.custom_index = none → a.custom_original_shape = none) :
    originalShapeVal (touch a) = originalShapeVal a := by
  unfold originalShapeVal touch
  cases h : a.custom_index with
  | none => rw [hc h]; rfl
  | some l => rfl

theorem getitem_inv {a b : LazyArr} {ix : List PEntry} (h : getitem a ix = some b) :
    ∃ new, parse_indices (touch a).shape ix = some ix
      ∧ composeLoop (indexVal (touch a)) (originalShapeVal (touch a)) (touch a).shape ix
          = some new
      ∧ b = ⟨(touch a).source, indices_shape new (originalShapeVal (touch a)), some new,
             some (originalShapeVal (touch a))⟩ := by
  unfold getitem at h
  dsimp only at h
  cases hp : parse_indices (touch a).shape ix with
  | none => rw [hp] at h; exact absurd h (by simp)
  | some ix2 =>
    rw [hp] at h
    obtain ⟨rfl, -, -⟩ := parse_indices_some hp
    dsimp only at h
    cases hl : composeLoop (indexVal (touch a)) (originalShapeVal (touch a)) (touch a).shape ix2 with
    | none => rw [hl] at h; exact absurd h (by simp)
    | some new =>
      rw [hl] at h
      simp only [Option.some.injEq] at h
      exact ⟨new, rfl, rfl, h.symm⟩

theorem getitem_sound {a b : LazyArr} {ix : List PEntry} {sels0 sels1 : List Sel}
    (hwf : arrWF a) (h : getitem a ix = some b)
    (hs0 : selsOfS (indexVal a) (originalShapeVal a) = some sels0)
    (hs1 : selsOfP ix a.shape = some sels1)
    (hne : slicesNE ix a.shape = true) :
    arrWF b ∧ b.source = a.source ∧ originalShapeVal b = originalShapeVal a
      ∧ selsOfS (indexVal b) (originalShapeVal b) = composeSels sels0 sels1
      ∧ b.shape = indices_shape (indexVal b) (originalShapeVal b) := by
  obtain ⟨hwfS, hwfSh, hwfC⟩ := hwf
  obtain ⟨new, hp, hl, rfl⟩ := getitem_inv h
  obtain ⟨-, hlen, hok⟩ := parse_indices_some hp
  rw [indexVal_touch, touch_oshape a hwfC, touch_shape] at hl
  have hIb : indexVal ⟨(touch a).source,
      indices_shape new (originalShapeVal (touch a)), some new,
      some (originalShapeVal (touch a))⟩ = new := indexVal_of_some rfl
  have hOb : originalShapeVal ⟨(touch a).source,
      indices_shape new (originalShapeVal (touch a)), some new,
      some (originalShapeVal (touch a))⟩ = originalShapeVal a := by
    show originalShapeVal (touch a) = originalShapeVal a
    exact touch_oshape a hwfC
  have hwfNew : storedWF new (originalShapeVal a) = true :=
    composeLoop_wf _ _ _ _ _ hwfS hok hl
  have hsels : selsOfS new (originalShapeVal a) = composeSels sels0 sels1 :=
    composeLoop_sound _ _ _ _ _ _ _ hwfS hok hwfSh hs0 hs1 hne hl
  refine ⟨⟨?_, ?_, ?_⟩, touch_source a, hOb, ?_, ?_⟩
  · rw [hIb, hOb]
    exact hwfNew
  · rw [hIb, hOb]
    show indices_shape new (originalShapeVal (touch a)) = _
    rw [touch_oshape a hwfC]
  · intro hcontra
    exact absurd hcontra (by simp)
  · rw [hIb, hOb]
    exact hsels
  · rw [hIb, hOb]
    show indices_shape new (originalShapeVal (touch a)) = _
    rw [touch_oshape a hwfC]

end CFIndex
namespace CFIndex

theorem storedWF_noBools :
    ∀ {ind : List IEntry} {oshape : List Nat},
      storedWF ind oshape = true → noBools ind = true
  | [], _, _ => rfl
  | _ :: _, [], h => absurd h (by simp [storedWF])
  | e :: r, n :: ns, h => by
    have h1 : entryWF n e = true ∧ storedWF r ns = true := by
      simpa [storedWF, Bool.and_eq_true] using h
    have IH := storedWF_noBools h1.2
    unfold noBools at IH ⊢
    rw [List.all_cons, IH, Bool.and_true]
    cases e with
    | ebool bs => exact absurd h1.1 (by simp [entryWF])
    | eboolscalar b => exact absurd h1.1 (by simp [entryWF])
    | esl s => rfl
    | eint i => rfl
    | earr xs => rfl

theorem indexVal_fresh {a : LazyArr} (h : a.custom_index = none) :
    indexVal a = List.replicate a.shape.length (.esl fullSlice) := by
  unfold indexVal touch
  rw [h]
  rfl

theorem originalShapeVal_fresh {a : LazyArr} (h : a.custom_original_shape = none) :
    originalShapeVal a = a.shape := by
  unfold originalShapeVal
  rw [h]
  rfl

theorem storedWF_replicate_full :
    ∀ sh : List Nat, storedWF (List.replicate sh.length (.esl fullSlice)) sh = true
  | [] => rfl
  | n :: ns => by
    rw [List.length_cons, List.replicate_succ]
    show (entryWF n (.esl fullSlice)
      && storedWF (List.replicate ns.length (.esl fullSlice)) ns) = true
    rw [storedWF_replicate_full ns]
    rfl

theorem indices_shape_replicate_full :
    ∀ sh : List Nat, indices_shape (List.replicate sh.length (.esl fullSlice)) sh = sh
  | [] => rfl
  | n :: ns => by
    rw [List.length_cons, List.replicate_succ]
    show (sliceElems fullSlice n).length
      :: indices_shape (List.replicate ns.length (.esl fullSlice)) ns = n :: ns
    rw [sliceElems_full, idRange_length, indices_shape_replicate_full ns]

theorem arrWF_fresh {a : LazyArr} (h1 : a.custom_index = none)
    (h2 : a.custom_original_shape = none) : arrWF a := by
  refine ⟨?_, ?_, fun _ => h2⟩
  · rw [indexVal_fresh h1, originalShapeVal_fresh h2]
    exact storedWF_replicate_full a.shape
  · rw [indexVal_fresh h1, originalShapeVal_fresh h2,
      indices_shape_replicate_full a.shape]

theorem selsOfS_replicate_full :
    ∀ sh : List Nat, selsOfS (List.replicate sh.length (.esl fullSlice)) sh
      = some (sh.map (fun m => Sel.list (idRange m)))
  | [] => rfl
  | n :: ns => by
    rw [List.length_cons, List.replicate_succ, List.map_cons]
    rw [selsOfS_cons_eq (show selOfEntry n (.esl fullSlice)
        = some (.list (sliceElems fullSlice n)) from rfl),
      selsOfS_replicate_full ns, sliceElems_full]
    rfl

theorem composeSels_idLeft :
    ∀ {ix : List PEntry} {sh : List Nat} {sels : List Sel},
      ix.all pEntryOk = true → selsOfP ix sh = some sels →
      composeSels (sh.map (fun m => Sel.list (idRange m))) sels = some sels
  | [], [], sels, _, h => by
    have : sels = [] := by simpa [selsOfP] using h.symm
    subst this
    rfl
  | [], _ :: _, sels, _, h => absurd h (by simp [selsOfP])
  | _ :: _, [], sels, _, h => absurd h (by simp [selsOfP])
  | e :: r, n :: ns, sels, hok, h => by
    obtain ⟨s, t, hs, ht, rfl⟩ := selsOfP_cons h
    have hok1 : pEntryOk e = true ∧ r.all pEntryOk = true := by
      simpa [List.all_cons, Bool.and_eq_true] using hok
    have hcanon := selOfP_canon hok1.1 hs
    have IH := composeSels_idLeft hok1.2 ht
    rw [List.map_cons, composeSels_list, selIndex_idRange hcanon, IH]

end CFIndex
namespace CFA

theorem mem_fd {agg : Agg} {dim : Nat} :
    dim ∈ get_fragmented_dimensions agg
      ↔ ∃ v, agg.fragment_shape[dim]? = some v ∧ 1 < v := by
  unfold get_fragmented_dimensions
  rw [List.mem_filterMap]
  constructor
  · rintro ⟨⟨i, v⟩, hmem, hf⟩
    dsimp only at hf
    split_ifs at hf with h1
    simp only [Option.some.injEq] at hf
    subst hf
    refine ⟨v, ?_, h1⟩
    exact List.mk_mem_enum_iff_getElem?.mp hmem
  · rintro ⟨v, hget, h1⟩
    refine ⟨(dim, v), List.mk_mem_enum_iff_getElem?.mpr hget, ?_⟩
    dsimp only
    rw [if_pos h1]

theorem specChunksAux_get (fd : List Nat) (fill : Nat → ChunkElem) :
    ∀ (cs : List (Option (List Nat))) (i k : Nat),
      (specChunksAux fd fill i cs)[k]?
        = (cs[k]?).map (fun c => if (i + k) ∈ fd then elemOfBase c else fill (i + k))
  | [], _, k => by simp [specChunksAux]
  | c :: rest, i, 0 => by
    simp [specChunksAux]
  | c :: rest, i, k + 1 => by
    show (((if i ∈ fd then elemOfBase c else fill i))
        :: specChunksAux fd fill (i + 1) rest)[k + 1]? = _
    rw [List.getElem?_cons_succ, specChunksAux_get fd fill rest (i + 1) k,
      List.getElem?_cons_succ]
    have h : i + 1 + k = i + (k + 1) := by omega
    rw [h]

theorem baseChunksAux_get :
    ∀ {agg : Agg} {i : Nat} {l : List (Nat × Nat)} {bs : List (Option (List Nat))},
      baseChunksAux agg i l = some bs →
      bs.length = l.length ∧
      ∀ k nf s, l[k]? = some (nf, s) →
        ((i + k) ∈ get_fragmented_dimensions agg →
          ∃ fs, fragSizes agg (i + k) nf = some fs ∧ bs[k]? = some (some fs)) ∧
        ((i + k) ∉ get_fragmented_dimensions agg → bs[k]? = some none)
  | _, _, [], bs, h => by
    have hbs : bs = [] := by simpa [baseChunksAux] using h.symm
    subst hbs
    exact ⟨rfl, fun k nf s hk => absurd hk (by simp)⟩
  | agg, i, (nf0, s0) :: rest, bs, h => by
    unfold baseChunksAux at h
    cases hh : (if i ∈ get_fragmented_dimensions agg
        then (fragSizes agg i nf0).map some else some none) with
    | none => rw [hh] at h; exact absurd h (by simp)
    | some h0 =>
      rw [hh] at h
      cases ht : baseChunksAux agg (i + 1) rest with
      | none => rw [ht] at h; exact absurd h (by simp)
      | some t =>
        rw [ht] at h
        simp only [Option.some.injEq] at h
        subst h
        obtain ⟨hlen, hget⟩ := baseChunksAux_get ht
        refine ⟨by simpa using hlen, ?_⟩
        intro k nf s hk
        cases k with
        | zero =>
          simp only [List.getElem?_cons_zero, Option.some.injEq, Prod.mk.injEq] at hk
          obtain ⟨rfl, rfl⟩ := hk
          constructor
          · intro hfd
            rw [Nat.add_zero] at hfd
            rw [if_pos hfd] at hh
            cases hfs : fragSizes agg i nf0 with
            | none => rw [hfs] at hh; exact absurd hh (by simp)
            | some fs =>
              rw [hfs] at hh
              simp only [Option.map_some', Option.some.injEq] at hh
              refine ⟨fs, by rw [Nat.add_zero]; exact hfs, ?_⟩
              rw [← hh, List.getElem?_cons_zero]
          · intro hfd
            rw [Nat.add_zero] at hfd
            rw [if_neg hfd] at hh
            simp only [Option.some.injEq] at hh
            rw [← hh, List.getElem?_cons_zero]
        | succ k =>
          rw [List.getElem?_cons_succ] at hk
          have hik : i + (k + 1) = i + 1 + k := by omega
          have := hget k nf s hk
          constructor
          · intro hfd
            rw [hik] at hfd ⊢
            obtain ⟨fs, hfs, hbs⟩ := this.1 hfd
            exact ⟨fs, hfs, by rw [List.getElem?_cons_succ]; exact hbs⟩
          · intro hfd
            rw [hik] at hfd
            rw [List.getElem?_cons_succ]
            exact this.2 hfd

theorem normalize_chunks_get {cs : List ChunkElem} {shape : List Nat} {k : Nat}
    {c : ChunkElem} {s : Nat} (h1 : cs[k]? = some c) (h2 : shape[k]? = some s) :
    (normalize_chunks cs shape)[k]? = some (normDim c s) := by
  unfold normalize_chunks
  rw [List.getElem?_map]
  have hz : (cs.zip shape)[k]? = some (c, s) := by
    rw [List.getElem?_zip_eq_some]
    exact ⟨h1, h2⟩
  rw [hz]
  rfl

theorem subarray_shapes_ok_inv {agg : Agg} {spec : ChunkSpec}
    {css : List (List Nat)} (h : subarray_shapes agg spec = .ok css) :
    ∃ base, baseChunks agg = some base
      ∧ css = normalize_chunks
          (specChunksAux (get_fragmented_dimensions agg) (dimSpecElem spec) 0 base)
          agg.shape := by
  unfold subarray_shapes at h
  dsimp only at h
  cases hb : baseChunks agg with
  | none => rw [hb] at h; exact absurd h (by simp)
  | some base =>
    rw [hb] at h
    refine ⟨base, rfl, ?_⟩
    cases spec with
    | num n =>
      dsimp only at h
      simp only [Except.ok.injEq] at h
      exact h.symm
    | str =>
      dsimp only at h
      simp only [Except.ok.injEq] at h
      exact h.symm
    | noneSpec =>
      dsimp only at h
      simp only [Except.ok.injEq] at h
      exact h.symm
    | dct m =>
      dsimp only at h
      simp only [Except.ok.injEq] at h
      exact h.symm
    | seq l =>
      dsimp only at h
      split_ifs at h with hl
      simp only [Except.ok.injEq] at h
      exact h.symm

theorem cartProd_mem_length :
    ∀ {ls : List (List α)} {u : List α}, u ∈ cartProd ls → u.length = ls.length
  | [], u, h => by
    simp only [cartProd, List.mem_singleton] at h
    subst h
    rfl
  | l :: ls, u, h => by
    simp only [cartProd, List.mem_flatMap, List.mem_map] at h
    obtain ⟨x, hx, v, hv, rfl⟩ := h
    have IH := cartProd_mem_length hv
    rw [List.length_cons, List.length_cons, IH]

theorem cartProd_mem_get :
    ∀ {ls : List (List α)} {u : List α}, u ∈ cartProd ls →
      ∀ (k : Nat) (x : α), u[k]? = some x → ∃ w : List α, ls[k]? = some w ∧ x ∈ w
  | [], u, h, k, x, hk => by
    simp only [cartProd, List.mem_singleton] at h
    subst h
    simp at hk
  | l :: ls, u, h, k, x, hk => by
    simp only [cartProd, List.mem_flatMap, List.mem_map] at h
    obtain ⟨y, hy, v, hv, rfl⟩ := h
    cases k with
    | zero =>
      simp only [List.getElem?_cons_zero, Option.some.injEq] at hk
      subst hk
      exact ⟨l, List.getElem?_cons_zero, hy⟩
    | succ k =>
      rw [List.getElem?_cons_succ] at hk
      obtain ⟨l2, hl2, hx⟩ := cartProd_mem_get hv k x hk
      exact ⟨l2, by rw [List.getElem?_cons_succ]; exact hl2, hx⟩

theorem blockdims_zero (bd : Int) : blockdims 0 bd = [0] := by
  unfold blockdims
  rw [if_pos rfl]

theorem normDim_zero {c : ChunkElem} (h : ∀ t, c ≠ .ctup t) :
    normDim c 0 = [0] := by
  cases c with
  | cauto => rfl
  | cnone => exact blockdims_zero 0
  | cnum n =>
    simp only [normDim]
    split_ifs <;> exact blockdims_zero _
  | ctup t => exact absurd rfl (h t)

end CFA
namespace Fragment

theorem fragLoop_append_notFound (read : String → String → ReadOutcome α) :
    ∀ (pre rest : List (String × String)),
      (∀ p ∈ pre, read p.1 p.2 = .notFound) →
      fragLoop read (pre ++ rest) = fragLoop read rest
  | [], _, _ => rfl
  | (f, ad) :: pre, rest, h => by
    have h0 : read f ad = .notFound := h (f, ad) (List.mem_cons_self _ _)
    show (match read f ad with
      | .success d => some (FragResult.data d)
      | .notFound => fragLoop read (pre ++ rest)
      | .failure m => some (.readError m f)) = fragLoop read rest
    rw [h0]
    exact fragLoop_append_notFound read pre rest
      (fun p hp => h p (List.mem_cons_of_mem _ hp))

end Fragment
namespace CFIndex

/-- Claim C1 (amended): starting from a freshly wrapped array (no index applied
yet), a chain of three `__getitem__` calls is semantically equal to a single
`__getitem__` call with the pre-composed index: same data source, same
`original_shape`, equal denoted selections over the original shape (hence
equal materialized contents), and equal shapes — provided every slice entry of
each applied index selects at least one position (`slicesNE`).  Without that
proviso the law fails (see the counterexample). -/
theorem C1_composition_amended
    (a b c d e : LazyArr) (ix1 ix2 ix3 ixC : List PEntry)
    (sels1 sels2 sels3 s12 selsC : List Sel)
    (ha1 : a.custom_index = none) (ha2 : a.custom_original_shape = none)
    (h1 : getitem a ix1 = some b) (h2 : getitem b ix2 = some c)
    (h3 : getitem c ix3 = some d) (hC : getitem a ixC = some e)
    (hs1 : selsOfP ix1 a.shape = some sels1) (hne1 : slicesNE ix1 a.shape = true)
    (hs2 : selsOfP ix2 b.shape = some sels2) (hne2 : slicesNE ix2 b.shape = true)
    (hs3 : selsOfP ix3 c.shape = some sels3) (hne3 : slicesNE ix3 c.shape = true)
    (hsC : selsOfP ixC a.shape = some selsC) (hneC : slicesNE ixC a.shape = true)
    (h12 : composeSels sels1 sels2 = some s12)
    (h123 : composeSels s12 sels3 = some selsC) :
    d.source = e.source ∧ originalShapeVal d = originalShapeVal e
      ∧ selsOfS (indexVal d) (originalShapeVal d)
          = selsOfS (indexVal e) (originalShapeVal e)
      ∧ d.shape = e.shape := by
  have hwfa := arrWF_fresh ha1 ha2
  have hs0 : selsOfS (indexVal a) (originalShapeVal a)
      = some (a.shape.map (fun m => Sel.list (idRange m))) := by
    rw [indexVal_fresh ha1, originalShapeVal_fresh ha2]
    exact selsOfS_replicate_full a.shape
  have hok1 : ix1.all pEntryOk = true := by
    obtain ⟨-, hp, -, -⟩ := getitem_inv h1
    exact (parse_indices_some hp).2.2
  have hokC : ixC.all pEntryOk = true := by
    obtain ⟨-, hp, -, -⟩ := getitem_inv hC
    exact (parse_indices_some hp).2.2
  obtain ⟨hwfb, hsrcb, hoshb, hselsb, -⟩ := getitem_sound hwfa h1 hs0 hs1 hne1
  rw [composeSels_idLeft hok1 hs1] at hselsb
  obtain ⟨hwfc, hsrcc, hoshc, hselsc, -⟩ := getitem_sound hwfb h2 hselsb hs2 hne2
  rw [h12] at hselsc
  obtain ⟨hwfd, hsrcd, hoshd, hselsd, hshd⟩ := getitem_sound hwfc h3 hselsc hs3 hne3
  rw [h123] at hselsd
  obtain ⟨hwfe, hsrce, hoshe, hselse, hshe⟩ := getitem_sound hwfa hC hs0 hsC hneC
  rw [composeSels_idLeft hokC hsC] at hselse
  refine ⟨by rw [hsrcd, hsrcc, hsrcb, hsrce], by rw [hoshd, hoshc, hoshb, hoshe], ?_, ?_⟩
  · rw [hselsd, hselse]
  · rw [hshd, hshe, indices_shape_eq_selShape hselsd, indices_shape_eq_selShape hselse]

/-- Witness for C1 at the docstring example shape `(6, 5)`: the chain
`[::2, [1, 3, 4]]`, `[[False, True, True], 1:]`, `[[1], 0]` equals the single
pre-composed call `[[4], 3]`. -/
theorem C1_composition_witness :
    (⟨0, [1], some [.earr [4], .eint 3], some [6, 5]⟩ : LazyArr).source
        = (⟨0, [1], some [.earr [4], .eint 3], some [6, 5]⟩ : LazyArr).source
      ∧ originalShapeVal ⟨0, [1], some [.earr [4], .eint 3], some [6, 5]⟩
        = originalShapeVal ⟨0, [1], some [.earr [4], .eint 3], some [6, 5]⟩
      ∧ selsOfS (indexVal ⟨0, [1], some [.earr [4], .eint 3], some [6, 5]⟩)
            (originalShapeVal ⟨0, [1], some [.earr [4], .eint 3], some [6, 5]⟩)
          = selsOfS (indexVal ⟨0, [1], some [.earr [4], .eint 3], some [6, 5]⟩)
            (originalShapeVal ⟨0, [1], some [.earr [4], .eint 3], some [6, 5]⟩)
      ∧ (⟨0, [1], some [.earr [4], .eint 3], some [6, 5]⟩ : LazyArr).shape
        = (⟨0, [1], some [.earr [4], .eint 3], some [6, 5]⟩ : LazyArr).shape :=
  C1_composition_amended
    ⟨0, [6, 5], none, none⟩
    ⟨0, [3, 3], some [.esl ⟨some 0, some 5, some 2⟩, .earr [1, 3, 4]], some [6, 5]⟩
    ⟨0, [2, 2], some [.earr [2, 4], .earr [3, 4]], some [6, 5]⟩
    ⟨0, [1], some [.earr [4], .eint 3], some [6, 5]⟩
    ⟨0, [1], some [.earr [4], .eint 3], some [6, 5]⟩
    [.psl ⟨none, none, some 2⟩, .parr [1, 3, 4]]
    [.pbool [false, true, true], .psl ⟨some 1, none, none⟩]
    [.parr [1], .pint 0]
    [.parr [4], .pint 3]
    [.list [0, 2, 4], .list [1, 3, 4]]
    [.list [1, 2], .list [1, 2]]
    [.list [1], .scal 0]
    [.list [2, 4], .list [3, 4]]
    [.list [4], .scal 3]
    rfl rfl (by decide) (by decide) (by decide) (by decide)
    (by decide) (by decide) (by decide) (by decide) (by decide) (by decide)
    (by decide) (by decide) (by decide) (by decide)

/-- Counterexample to C1 as stated: over shape `(10,)` the chain
`x[0:10:3][3:0:3]` yields shape `[1]` (the stored slice `9::9` selects
position 9), while the pre-composed selection is empty, so the single call
with the pre-composed index (`[[]]`) yields shape `[0]`. -/
theorem C1_counterexample :
    getitem ⟨0, [10], none, none⟩ [.psl ⟨some 0, some 10, some 3⟩]
      = some ⟨0, [4], some [.esl ⟨some 0, some 10, some 3⟩], some [10]⟩
    ∧ getitem ⟨0, [4], some [.esl ⟨some 0, some 10, some 3⟩], some [10]⟩
        [.psl ⟨some 3, some 0, some 3⟩]
      = some ⟨0, [1], some [.esl ⟨some 9, none, some 9⟩], some [10]⟩
    ∧ getitem ⟨0, [10], none, none⟩ [.parr []]
      = some ⟨0, [0], some [.earr []], some [10]⟩
    ∧ (selsOfP [.psl ⟨some 0, some 10, some 3⟩] [10]).bind
        (fun s1 => (selsOfP [.psl ⟨some 3, some 0, some 3⟩] [4]).bind
          (composeSels s1)) = some [.list []]
    ∧ selsOfP [.parr ([] : List Int)] [10] = some [.list []] := by
  decide

/-- Claim C2: after every successful `__getitem__` on a well-formed lazily
indexed array, resolving the stored composed index against `original_shape`
yields exactly the stored `shape`, and that shape equals the numpy shape of
the selection the stored index denotes (scalar dimensions dropped, list
dimensions contributing their lengths) — including empty selections and
zero-size dimensions. -/
theorem C2_shape_invariant (a b : LazyArr) (ix : List PEntry)
    (hwf : arrWF a) (h : getitem a ix = some b) :
    b.shape = indices_shape (indexVal b) (originalShapeVal b)
    ∧ ∃ sels, selsOfS (indexVal b) (originalShapeVal b) = some sels
        ∧ b.shape = selShape sels := by
  obtain ⟨hwfS, hwfSh, hwfC⟩ := hwf
  obtain ⟨new, hp, hl, rfl⟩ := getitem_inv h
  obtain ⟨-, -, hok⟩ := parse_indices_some hp
  rw [indexVal_touch, touch_oshape a hwfC, touch_shape] at hl
  have hIb : indexVal ⟨(touch a).source,
      indices_shape new (originalShapeVal (touch a)), some new,
      some (originalShapeVal (touch a))⟩ = new := indexVal_of_some rfl
  have hOb : originalShapeVal ⟨(touch a).source,
      indices_shape new (originalShapeVal (touch a)), some new,
      some (originalShapeVal (touch a))⟩ = originalShapeVal (touch a) := rfl
  have hwfNew : storedWF new (originalShapeVal a) = true :=
    composeLoop_wf _ _ _ _ _ hwfS hok hl
  obtain ⟨sels, hsels⟩ := selsOfS_exists hwfNew
  refine ⟨by rw [hIb, hOb], sels, ?_, ?_⟩
  · rw [hIb, hOb, touch_oshape a hwfC]
    exact hsels
  · show indices_shape new (originalShapeVal (touch a)) = selShape sels
    rw [touch_oshape a hwfC]
    exact indices_shape_eq_selShape hsels

/-- Witness for C2: indexing a fresh array of shape `[3]` with the integer 1
stores index `[1]` with shape `[]` (the dimension is dropped), matching the
resolved shape. -/
theorem C2_shape_witness :
    (⟨0, [], some [.eint 1], some [3]⟩ : LazyArr).shape
      = indices_shape (indexVal ⟨0, [], some [.eint 1], some [3]⟩)
          (originalShapeVal ⟨0, [], some [.eint 1], some [3]⟩)
    ∧ ∃ sels, selsOfS (indexVal ⟨0, [], some [.eint 1], some [3]⟩)
          (originalShapeVal ⟨0, [], some [.eint 1], some [3]⟩) = some sels
        ∧ (⟨0, [], some [.eint 1], some [3]⟩ : LazyArr).shape = selShape sels :=
  C2_shape_invariant ⟨0, [3], none, none⟩ ⟨0, [], some [.eint 1], some [3]⟩
    [.pint 1] ⟨by decide, by decide, fun _ => rfl⟩ (by decide)

/-- Claim C5 (defect): the slice-with-slice composition is total — it always
yields a slice, never an error — but an empty composed selection does not
collapse to a canonical empty slice.  Composing the stored full slice over
length 10 with the requested slice `9:0:3` (which selects nothing) stores
`slice(9, None, 3)`, which selects position 9: the `if stop < 0: stop = None`
rewrite turns the empty-selection sentinel stop `-1` into an unbounded stop,
so the result has shape `[1]` where numpy gives `(0,)`. -/
theorem C5_empty_slice_defect :
    sliceElems ⟨some 9, some 0, some 3⟩ 10 = []
    ∧ composeSlcSlc 10 10 fullSlice ⟨some 9, some 0, some 3⟩
        = ⟨some 9, none, some 3⟩
    ∧ sliceElems (composeSlcSlc 10 10 fullSlice ⟨some 9, some 0, some 3⟩) 10 = [9]
    ∧ getitem ⟨0, [10], none, none⟩ [.psl ⟨some 9, some 0, some 3⟩]
      = some ⟨0, [1], some [.esl ⟨some 9, none, some 3⟩], some [10]⟩
    ∧ selsOfP [.psl ⟨some 9, some 0, some 3⟩] [10] = some [.list []] := by
  decide

/-- Claim C8: after every successful `__getitem__` on a well-formed lazily
indexed array — in particular for any valid index containing a boolean mask —
the stored index contains no boolean-mask entry on any dimension: every stored
entry is a slice (full or not), an integer scalar, or an integer array. -/
theorem C8_no_bool_stored (a b : LazyArr) (ix : List PEntry)
    (hwf : arrWF a) (h : getitem a ix = some b) :
    noBools (indexVal b) = true := by
  obtain ⟨hwfS, hwfSh, hwfC⟩ := hwf
  obtain ⟨new, hp, hl, rfl⟩ := getitem_inv h
  obtain ⟨-, -, hok⟩ := parse_indices_some hp
  rw [indexVal_touch, touch_oshape a hwfC, touch_shape] at hl
  have hIb : indexVal ⟨(touch a).source,
      indices_shape new (originalShapeVal (touch a)), some new,
      some (originalShapeVal (touch a))⟩ = new := indexVal_of_some rfl
  rw [hIb]
  exact storedWF_noBools (composeLoop_wf _ _ _ _ _ hwfS hok hl)

/-- Witness for C8: applying the boolean mask `[True, False, True]` to a fresh
array of shape `[3]` stores the integer array `[0, 2]`, not a mask. -/
theorem C8_no_bool_witness :
    noBools (indexVal ⟨0, [2], some [.earr [0, 2]], some [3]⟩) = true :=
  C8_no_bool_stored ⟨0, [3], none, none⟩ ⟨0, [2], some [.earr [0, 2]], some [3]⟩
    [.pbool [true, false, true]] ⟨by decide, by decide, fun _ => rfl⟩ (by decide)

/-- Claim C9: `__getitem__` returns a new instance sharing the data source and
`original_shape` with the original.  The embedded `getitem` takes no
data-reading capability, so no retrieval from the data source can occur; and
the only effect on the original instance — the lazy `_custom` initialisation
performed by the `index` property (`touch`) — leaves its observable `shape`,
`index` and `original_shape` values unchanged. -/
theorem C9_returns_new (a b : LazyArr) (ix : List PEntry)
    (hc : a.custom_index = none → a.custom_original_shape = none)
    (h : getitem a ix = some b) :
    b.source = a.source
    ∧ originalShapeVal b = originalShapeVal a
    ∧ (touch a).shape = a.shape
    ∧ indexVal (touch a) = indexVal a
    ∧ originalShapeVal (touch a) = originalShapeVal a := by
  obtain ⟨new, hp, hl, rfl⟩ := getitem_inv h
  have hOb : originalShapeVal ⟨(touch a).source,
      indices_shape new (originalShapeVal (touch a)), some new,
      some (originalShapeVal (touch a))⟩ = originalShapeVal (touch a) := rfl
  exact ⟨touch_source a, by rw [hOb]; exact touch_oshape a hc, touch_shape a,
    indexVal_touch a, touch_oshape a hc⟩

/-- Witness for C9: indexing a fresh array of shape `[3]` with `1:` yields a
new instance sharing source 0 and original shape `[3]`. -/
theorem C9_returns_new_witness :
    (⟨0, [2], some [.esl ⟨some 1, some 3, some 1⟩], some [3]⟩ : LazyArr).source
        = (⟨0, [3], none, none⟩ : LazyArr).source
    ∧ originalShapeVal ⟨0, [2], some [.esl ⟨some 1, some 3, some 1⟩], some [3]⟩
        = originalShapeVal ⟨0, [3], none, none⟩
    ∧ (touch ⟨0, [3], none, none⟩).shape = (⟨0, [3], none, none⟩ : LazyArr).shape
    ∧ indexVal (touch ⟨0, [3], none, none⟩) = indexVal ⟨0, [3], none, none⟩
    ∧ originalShapeVal (touch ⟨0, [3], none, none⟩)
        = originalShapeVal ⟨0, [3], none, none⟩ :=
  C9_returns_new ⟨0, [3], none, none⟩
    ⟨0, [2], some [.esl ⟨some 1, some 3, some 1⟩], some [3]⟩
    [.psl ⟨some 1, none, none⟩] (fun _ => rfl) (by decide)

end CFIndex

namespace CFA

/-- Claim C3: for every aggregate whose `fragment_shape` and `shape` have the
same rank, every fragmented dimension (spanned by more than one fragment) and
every chunking specification, a successful `subarray_shapes` call returns on
that dimension exactly the sizes `stop - start` of that dimension's fragment
location ranges — the requested chunking for that dimension is ignored
entirely. -/
theorem C3_fragmented_dim_boundaries (agg : Agg) (spec : ChunkSpec)
    (dim nf : Nat) (css : List (List Nat))
    (hlen : agg.fragment_shape.length = agg.shape.length)
    (hnf : agg.fragment_shape[dim]? = some nf) (hfrag : 1 < nf)
    (h : subarray_shapes agg spec = .ok css) :
    ∃ fs, fragSizes agg dim nf = some fs ∧ css[dim]? = some fs := by
  obtain ⟨base, hb, rfl⟩ := subarray_shapes_ok_inv h
  have hfd : dim ∈ get_fragmented_dimensions agg := mem_fd.mpr ⟨nf, hnf, hfrag⟩
  have hdim1 : dim < agg.fragment_shape.length := by
    rw [List.getElem?_eq_some] at hnf
    exact hnf.1
  have hdim2 : dim < agg.shape.length := hlen ▸ hdim1
  have hs : agg.shape[dim]? = some agg.shape[dim] := List.getElem?_eq_getElem hdim2
  have hzip : (agg.fragment_shape.zip agg.shape)[dim]? = some (nf, agg.shape[dim]) := by
    rw [List.getElem?_zip_eq_some]
    exact ⟨hnf, hs⟩
  unfold baseChunks at hb
  obtain ⟨hlenb, hget⟩ := baseChunksAux_get hb
  obtain ⟨fs, hfs, hbs⟩ :=
    (hget dim nf agg.shape[dim] hzip).1 (by rw [Nat.zero_add]; exact hfd)
  rw [Nat.zero_add] at hfs
  refine ⟨fs, hfs, ?_⟩
  have hcs : (specChunksAux (get_fragmented_dimensions agg)
        (dimSpecElem spec) 0 base)[dim]? = some (ChunkElem.ctup fs) := by
    rw [specChunksAux_get, hbs]
    simp [Nat.zero_add, hfd, elemOfBase]
  rw [normalize_chunks_get hcs hs]
  rfl

/-- Witness for C3 at the docstring aggregate: requesting `{1: 40}` leaves
dimension 0 at the fragment sizes `[6, 6]`. -/
theorem C3_fragmented_witness :
    ∃ fs, fragSizes exampleAgg 0 2 = some fs
      ∧ ([[6, 6], [1], [73], [144]] : List (List Nat))[0]? = some fs :=
  C3_fragmented_dim_boundaries exampleAgg (.dct [(1, .cnum 40)]) 0 2
    [[6, 6], [1], [73], [144]] (by decide) (by decide) (by decide) rfl

/-- Claim C6 (amended): a zero-size non-fragmented dimension does not make the
plan empty and raises no error: `subarray_shapes` returns the single
zero-extent chunk `[0]` on that axis (for any requested chunking that is not
an explicit tuple on that axis), and every subarray enumerated by `subarrays`
has extent 0 there — the cross product is not empty. -/
theorem C6_zero_dim_amended (agg : Agg) (spec : ChunkSpec) (dim : Nat)
    (css : List (List Nat))
    (hlen : agg.fragment_shape.length = agg.shape.length)
    (hz : agg.shape[dim]? = some 0)
    (hfd : dim ∉ get_fragmented_dimensions agg)
    (htup : ∀ t, dimSpecElem spec dim ≠ .ctup t)
    (h : subarray_shapes agg spec = .ok css) :
    css[dim]? = some [0]
    ∧ ∀ u ∈ (subarrays agg css).u_shapes, u[dim]? = some 0 := by
  obtain ⟨base, hb, rfl⟩ := subarray_shapes_ok_inv h
  have hdim2 : dim < agg.shape.length := by
    rw [List.getElem?_eq_some] at hz
    exact hz.1
  have hdim1 : dim < agg.fragment_shape.length := by omega
  have hnf : agg.fragment_shape[dim]? = some agg.fragment_shape[dim] :=
    List.getElem?_eq_getElem hdim1
  have hzip : (agg.fragment_shape.zip agg.shape)[dim]?
      = some (agg.fragment_shape[dim], 0) := by
    rw [List.getElem?_zip_eq_some]
    exact ⟨hnf, hz⟩
  unfold baseChunks at hb
  obtain ⟨hlenb, hget⟩ := baseChunksAux_get hb
  have h0 := (hget dim agg.fragment_shape[dim] 0 hzip).2
    (by rw [Nat.zero_add]; exact hfd)
  have hcs : (specChunksAux (get_fragmented_dimensions agg)
        (dimSpecElem spec) 0 base)[dim]? = some (dimSpecElem spec dim) := by
    rw [specChunksAux_get, h0]
    simp [Nat.zero_add, hfd]
  have hcss : (normalize_chunks (specChunksAux (get_fragmented_dimensions agg)
        (dimSpecElem spec) 0 base) agg.shape)[dim]? = some [0] := by
    rw [normalize_chunks_get hcs hz, normDim_zero htup]
  refine ⟨hcss, ?_⟩
  intro u hu
  have hu2 : u ∈ cartProd (normalize_chunks (specChunksAux
      (get_fragmented_dimensions agg) (dimSpecElem spec) 0 base) agg.shape) := hu
  have hlenu := cartProd_mem_length hu2
  have hdim3 : dim < u.length := by
    rw [hlenu]
    rw [List.getElem?_eq_some] at hcss
    exact hcss.1
  have hx : u[dim]? = some u[dim] := List.getElem?_eq_getElem hdim3
  obtain ⟨w, hw, hxw⟩ := cartProd_mem_get hu2 dim u[dim] hx
  rw [hcss] at hw
  simp only [Option.some.injEq] at hw
  subst hw
  simp only [List.mem_singleton] at hxw
  rw [hx, hxw]

/-- Witness for C6 at `aggZero` (shape `[4, 0]`, fragmented along dimension
0): with the `"auto"` specification, dimension 1 gets the single chunk `[0]`
and both enumerated subarrays have extent 0 there. -/
theorem C6_zero_dim_witness :
    ([[2, 2], [0]] : List (List Nat))[1]? = some [0]
    ∧ ∀ u ∈ (subarrays aggZero [[2, 2], [0]]).u_shapes, u[1]? = some 0 :=
  C6_zero_dim_amended aggZero .str 1 [[2, 2], [0]] (by decide) (by decide)
    (by decide) (fun t h => ChunkElem.noConfusion h) rfl

/-- Counterexample to C6 as stated: `aggZero` has the zero-size dimension 1,
yet planning enumerates two subarrays (one per fragment of dimension 0) and
the work graph has two retrieval tasks, not zero — the zero-size dimension
contributes one zero-extent chunk, not an empty cross product. -/
theorem C6_counterexample :
    subarray_shapes aggZero .str = .ok [[2, 2], [0]]
    ∧ (subarrays aggZero [[2, 2], [0]]).u_shapes = [[2, 0], [2, 0]]
    ∧ (to_work_graph aggZero [[2, 2], [0]]).length = 2 := by
  refine ⟨rfl, by decide, by decide⟩

/-- Claim C7: for the docstring aggregate (shape `(12, 1, 73, 144)`, fragment
shape `(2, 1, 1, 1)`, fragments at `(0, 6)` and `(6, 12)` on dimension 0),
`subarray_shapes({1: 40})` returns `((6, 6), (1,), (73,), (144,))`, and
`subarrays` enumerates exactly 2 subarrays, each lying wholly in one fragment
(fragment locations 0 and 1) with within-fragment index `Full` on
dimension 0. -/
theorem C7_docstring_example :
    subarray_shapes exampleAgg (.dct [(1, .cnum 40)])
      = .ok [[6, 6], [1], [73], [144]]
    ∧ (subarrays exampleAgg [[6, 6], [1], [73], [144]]).u_indices
      = [[.ival 0 6, .ival 0 1, .ival 0 73, .ival 0 144],
         [.ival 6 12, .ival 0 1, .ival 0 73, .ival 0 144]]
    ∧ (subarrays exampleAgg [[6, 6], [1], [73], [144]]).f_indices
      = [[.full, .ival 0 1, .ival 0 73, .ival 0 144],
         [.full, .ival 0 1, .ival 0 73, .ival 0 144]]
    ∧ (subarrays exampleAgg [[6, 6], [1], [73], [144]]).f_locations
      = [[0, 0, 0, 0], [1, 0, 0, 0]]
    ∧ (to_work_graph exampleAgg [[6, 6], [1], [73], [144]]).length = 2 := by
  exact ⟨rfl, by decide, by decide, by decide, by decide⟩

/-- Claim C10: a sequence chunking specification whose length differs from the
aggregate's dimensionality makes `subarray_shapes` return the `ValueError`
(before any normalised boundary list is produced), while scalar, string,
`None` and dict specifications (with any key set) never produce that error. -/
theorem C10_seq_length_check (agg : Agg) (base : List (Option (List Nat)))
    (l : List ChunkElem) (hb : baseChunks agg = some base)
    (hlen : l.length ≠ agg.shape.length) :
    subarray_shapes agg (.seq l) = .error (.wrongShapes l.length agg.shape.length)
    ∧ (∀ n : Int, ∀ g v : Nat,
        subarray_shapes agg (.num n) ≠ .error (.wrongShapes g v))
    ∧ (∀ g v : Nat, subarray_shapes agg .str ≠ .error (.wrongShapes g v))
    ∧ (∀ g v : Nat, subarray_shapes agg .noneSpec ≠ .error (.wrongShapes g v))
    ∧ (∀ m : List (Nat × ChunkElem), ∀ g v : Nat,
        subarray_shapes agg (.dct m) ≠ .error (.wrongShapes g v)) := by
  refine ⟨?_, ?_, ?_, ?_, ?_⟩
  · unfold subarray_shapes
    rw [hb]
    dsimp only
    rw [if_pos hlen]
  · intro n g v
    unfold subarray_shapes
    rw [hb]
    simp
  · intro g v
    unfold subarray_shapes
    rw [hb]
    simp
  · intro g v
    unfold subarray_shapes
    rw [hb]
    simp
  · intro m g v
    unfold subarray_shapes
    rw [hb]
    simp

/-- Witness for C10: the docstring aggregate has 4 dimensions, so a 2-element
sequence is rejected with `ValueError`, while a scalar request is not. -/
theorem C10_seq_length_witness :
    subarray_shapes exampleAgg (.seq [.cnone, .cnum 1])
      = .error (.wrongShapes 2 4)
    ∧ subarray_shapes exampleAgg (.num 40) ≠ .error (.wrongShapes 2 4) := by
  have h := C10_seq_length_check exampleAgg [some [6, 6], none, none, none]
    [.cnone, .cnum 1] rfl (by decide)
  exact ⟨h.1, h.2.1 40 2 4⟩

end CFA

namespace Fragment

/-- Claim C4: reading a multi-candidate fragment tries the
`(filename, address)` pairs strictly in order: the first candidate that reads
successfully supplies the data; candidates are skipped only on a not-found
failure; any other read failure is surfaced immediately (naming the failing
file) regardless of later candidates; and when every candidate is missing the
result is a not-found error naming all attempted filenames (with the
singular/plural message distinction). -/
theorem C4_fallback_order {α : Type} (read : String → String → ReadOutcome α)
    (filenames addresses : List String) :
    (∀ (pre rest : List (String × String)) (f ad : String) (d : α),
        filenames.zip addresses = pre ++ (f, ad) :: rest →
        (∀ p ∈ pre, read p.1 p.2 = .notFound) →
        read f ad = .success d →
        fragment_getitem read filenames addresses = .data d)
    ∧ (∀ (pre rest : List (String × String)) (f ad : String) (m : String),
        filenames.zip addresses = pre ++ (f, ad) :: rest →
        (∀ p ∈ pre, read p.1 p.2 = .notFound) →
        read f ad = .failure m →
        fragment_getitem read filenames addresses = .readError m f)
    ∧ ((∀ p ∈ filenames.zip addresses, read p.1 p.2 = .notFound) →
        fragment_getitem read filenames addresses
          = .noSuchFiles (decide (filenames.length ≠ 1)) filenames) := by
  refine ⟨?_, ?_, ?_⟩
  · intro pre rest f ad d hzip hpre hread
    unfold fragment_getitem
    rw [hzip, fragLoop_append_notFound read pre _ hpre]
    show (match fragLoop read ((f, ad) :: rest) with
      | some r => r
      | none => FragResult.noSuchFiles (decide (filenames.length ≠ 1)) filenames)
      = .data d
    show (match (match read f ad with
      | .success d => some (FragResult.data d)
      | .notFound => fragLoop read rest
      | .failure m => some (.readError m f)) with
      | some r => r
      | none => FragResult.noSuchFiles (decide (filenames.length ≠ 1)) filenames)
      = .data d
    rw [hread]
  · intro pre rest f ad m hzip hpre hread
    unfold fragment_getitem
    rw [hzip, fragLoop_append_notFound read pre _ hpre]
    show (match (match read f ad with
      | .success d => some (FragResult.data d)
      | .notFound => fragLoop read rest
      | .failure m => some (.readError m f)) with
      | some r => r
      | none => FragResult.noSuchFiles (decide (filenames.length ≠ 1)) filenames)
      = .readError m f
    rw [hread]
  · intro hall
    have hnone : fragLoop read (filenames.zip addresses) = none := by
      have h2 := fragLoop_append_notFound read (filenames.zip addresses) [] hall
      rw [List.append_nil] at h2
      exact h2
    unfold fragment_getitem
    rw [hnone]

/-- Witness for C4 with the concrete `readCase` behaviour: a missing candidate
is skipped and the next one read; a corrupt candidate is surfaced immediately;
two missing candidates produce the plural not-found error naming both. -/
theorem C4_fallback_witness :
    fragment_getitem readCase ["a", "b"] ["p", "q"] = .data 5
    ∧ fragment_getitem readCase ["a", "c"] ["p", "q"] = .readError "bad" "c"
    ∧ fragment_getitem readCase ["a", "a"] ["p", "q"]
      = .noSuchFiles true ["a", "a"] := by
  refine ⟨?_, ?_, ?_⟩
  · exact (C4_fallback_order readCase ["a", "b"] ["p", "q"]).1
      [("a", "p")] [] "b" "q" 5 rfl (by decide) (by decide)
  · exact (C4_fallback_order readCase ["a", "c"] ["p", "q"]).2.1
      [("a", "p")] [] "c" "q" "bad" rfl (by decide) (by decide)
  · exact (C4_fallback_order readCase ["a", "a"] ["p", "q"]).2.2 (by decide)

end Fragment
